import Mathlib

/-!
Verification of the MazeGame backend core: move validation (`Backend/mazes.py`),
the caller's state update (`Backend/main.py`), and maze generation
(`Backend/maze_generator.py`), shallowly embedded in Lean.

Positions are (row, col) pairs of integers; the grid is a list of rows of
characters where a hash means wall and a space means open floor.  Python
dictionaries (keys, doors, books, portals) are embedded as association lists
in insertion order; dictionary iteration and first-match lookup coincide with
the source because dictionary keys are unique in all shipped data.
-/

deriving instance DecidableEq for Except

namespace MazeGame

/-- A position: (row, col), row grows downward.  Integers, since the move
loop in `validate_move` can step to negative coordinates before the bounds
check rejects them. -/
abbrev Pos := Int × Int

/-- `MazeConfig` from `Backend/mazes.py`: grid, start position and the
color-indexed key/door/book maps plus the portal map. -/
structure MazeConfig where
  maze_id : Int
  name : String
  grid : List (List Char)
  start_pos : Pos
  keys : List (String × Pos)
  doors : List (String × Pos)
  books : List (String × Pos)
  portals : List (Pos × Pos)
deriving DecidableEq, Repr

/-- Result of `validate_move`: either a rejection dictionary
`{valid: False, error: e}` or the success dictionary with the new state. -/
inductive MoveResult where
  | invalid (error : String)
  | valid (new_position : Pos) (collected_keys : List String)
      (collected_books : List String) (won : Bool)
deriving DecidableEq, Repr

/-- Grid cell read `grid[r][c]` (only meaningful in bounds; callers check
bounds first, as the source does). -/
def cellAt (grid : List (List Char)) (p : Pos) : Char :=
  (grid.getD p.1.toNat []).getD p.2.toNat '#'

/-- The wall/boundary test of `validate_move`:
`new_row < 0 or new_row >= len(grid) or new_col < 0 or
 new_col >= len(grid[0]) or grid[new_row][new_col] == "#"`. -/
def blockedCell (grid : List (List Char)) (p : Pos) : Bool :=
  decide (p.1 < 0) || decide ((grid.length : Int) ≤ p.1) ||
  decide (p.2 < 0) || decide (((grid.headD []).length : Int) ≤ p.2) ||
  (cellAt grid p == '#')

/-- In-bounds test (the negation of the pure boundary part of the source's
wall/boundary check). -/
def inBoundsCell (grid : List (List Char)) (p : Pos) : Bool :=
  decide (0 ≤ p.1) && decide (p.1 < (grid.length : Int)) &&
  decide (0 ≤ p.2) && decide (p.2 < ((grid.headD []).length : Int))

/-- The locked-door scan of `validate_move`: the first `(color, door_pos)`
entry (dictionary order) with `(new_row, new_col) == door_pos` and
`color not in collected_keys`. -/
def lockedDoorAt (doors : List (String × Pos)) (collected_keys : List String)
    (p : Pos) : Option String :=
  (doors.find? (fun cd => cd.2 == p && !(collected_keys.contains cd.1))).map
    Prod.fst

/-- Portal lookup `maze.portals[final_pos]` guarded by
`final_pos in maze.portals`. -/
def portalDest (portals : List (Pos × Pos)) (p : Pos) : Option Pos :=
  (portals.find? (fun ab => ab.1 == p)).map Prod.snd

/-- The final position after the portal check: the mapped destination when the
landing cell is a portal source, the landing cell itself otherwise. -/
def portalApply (portals : List (Pos × Pos)) (p : Pos) : Pos :=
  match portalDest portals p with
  | some q => q
  | none => p

/-- The key-collection loop of `validate_move`: walk the `keys` dictionary in
order and append each color whose position equals the final cell and which is
not already held. -/
def collectKeys (mkeys : List (String × Pos)) (final : Pos)
    (acc : List String) : List String :=
  mkeys.foldl
    (fun ks cp => if cp.2 == final && !(ks.contains cp.1) then ks ++ [cp.1]
                  else ks) acc

/-- The book-collection loop of `validate_move`: like key collection, but a
book is only taken when its color is in the (already updated) key list. -/
def collectBooks (mbooks : List (String × Pos)) (final : Pos)
    (new_keys : List String) (acc : List String) : List String :=
  mbooks.foldl
    (fun bs cp =>
      if cp.2 == final && new_keys.contains cp.1 && !(bs.contains cp.1) then
        bs ++ [cp.1]
      else bs) acc

/-- The direction table of `validate_move`. -/
def directionMap (direction : String) : Option Pos :=
  if direction == "up" then some (-1, 0)
  else if direction == "down" then some (1, 0)
  else if direction == "left" then some (0, -1)
  else if direction == "right" then some (0, 1)
  else none

/-- The per-step loop of `validate_move` (`for step in range(steps)`): advance
one cell, fail on wall/boundary, fail on a locked door, otherwise continue.
Returns the landing cell before the portal check. -/
def stepLoop (maze : MazeConfig) (collected_keys : List String) (d : Pos) :
    Nat → Pos → Except String Pos
  | 0, p => .ok p
  | n + 1, p =>
    let q : Pos := (p.1 + d.1, p.2 + d.2)
    if blockedCell maze.grid q then .error "Hit wall or boundary"
    else
      match lockedDoorAt maze.doors collected_keys q with
      | some color => .error ("Need " ++ color ++ " key to pass")
      | none => stepLoop maze collected_keys d n q

/-- Body of `validate_move` after the maze lookup, over an explicit
`MazeConfig`.  `steps` is an `Int` because the HTTP layer
(`MoveSubmission.steps: int`) places no positivity constraint on it;
`range(steps)` runs `steps.toNat` iterations. -/
def validate_move_core (maze : MazeConfig) (current_pos : Pos)
    (direction : String) (steps : Int) (collected_keys : List String)
    (collected_books : List String) : MoveResult :=
  match directionMap direction with
  | none => .invalid "Invalid direction"
  | some d =>
    match stepLoop maze collected_keys d steps.toNat current_pos with
    | .error e => .invalid e
    | .ok landing =>
      let final_pos := portalApply maze.portals landing
      let new_keys := collectKeys maze.keys final_pos collected_keys
      let new_books := collectBooks maze.books final_pos new_keys
        collected_books
      .valid final_pos new_keys new_books (new_books.length == 5)

/-- `MAZE_1` (Beginner Maze) from `Backend/mazes.py`. -/
def MAZE_1 : MazeConfig where
  maze_id := 1
  name := "Beginner Maze"
  grid :=
    [ "###########",
      "#         #",
      "# #########",
      "#       # #",
      "# # ### # #",
      "# #   # # #",
      "# # # ### #",
      "# # # #   #",
      "# # # # ###",
      "# # #     #",
      "###########"
    ].map String.toList
  start_pos := (1, 1)
  keys := [("blue", (1, 8)), ("orange", (5, 5)), ("green", (5, 3)),
           ("purple", (8, 3)), ("red", (1, 4))]
  doors := [("blue", (1, 7)), ("orange", (9, 9)), ("green", (9, 5)),
            ("purple", (3, 9)), ("red", (6, 5))]
  books := [("blue", (1, 7)), ("orange", (9, 9)), ("green", (9, 5)),
            ("purple", (3, 9)), ("red", (6, 5))]
  portals := [((9, 6), (1, 2)), ((1, 2), (9, 6)), ((3, 7), (4, 7)),
              ((4, 7), (3, 7))]

/-- `MAZE_2` (Intermediate Maze) from `Backend/mazes.py`. -/
def MAZE_2 : MazeConfig where
  maze_id := 2
  name := "Intermediate Maze"
  grid :=
    [ "###############",
      "#   #   #     #",
      "# ### # ### ###",
      "#     #   #   #",
      "# ######### ###",
      "#         #   #",
      "### # # ### # #",
      "# # # #   # # #",
      "# # ####### ###",
      "#   #     # # #",
      "### # ##### # #",
      "#     # #     #",
      "### # # # # ###",
      "#   #     #   #",
      "###############"
    ].map String.toList
  start_pos := (1, 1)
  keys := [("blue", (7, 5)), ("orange", (5, 4)), ("green", (13, 11)),
           ("purple", (2, 1)), ("red", (9, 9))]
  doors := [("blue", (6, 3)), ("orange", (1, 11)), ("green", (11, 4)),
            ("purple", (13, 6)), ("red", (1, 12))]
  books := [("blue", (6, 3)), ("orange", (1, 11)), ("green", (11, 4)),
            ("purple", (13, 6)), ("red", (1, 12))]
  portals := [((8, 3), (1, 9)), ((1, 9), (8, 3)), ((13, 13), (9, 1)),
              ((9, 1), (13, 13))]

/-- `MAZE_3` (Advanced Maze) from `Backend/mazes.py`. -/
def MAZE_3 : MazeConfig where
  maze_id := 3
  name := "Advanced Maze"
  grid :=
    [ "###################",
      "#         # #   # #",
      "### ####### # # # #",
      "#     #       # # #",
      "# # ### ######### #",
      "# #               #",
      "### # # ##### #####",
      "#   # #     #     #",
      "# # ### # # #######",
      "# # #   # #       #",
      "# # # # ### ### # #",
      "# # # # # # # # # #",
      "##### # # ### #####",
      "#   # #   #       #",
      "# # ### # # # #####",
      "# #     #   #     #",
      "# # ### # # ### # #",
      "# # #   # #   # # #",
      "###################"
    ].map String.toList
  start_pos := (1, 1)
  keys := [("blue", (10, 17)), ("orange", (15, 17)), ("green", (13, 3)),
           ("purple", (1, 14)), ("red", (10, 15))]
  doors := [("blue", (17, 1)), ("orange", (5, 3)), ("green", (4, 1)),
            ("purple", (9, 6)), ("red", (17, 7))]
  books := [("blue", (17, 1)), ("orange", (5, 3)), ("green", (4, 1)),
            ("purple", (9, 6)), ("red", (17, 7))]
  portals := [((1, 3), (8, 3)), ((8, 3), (1, 3)), ((5, 16), (15, 13)),
              ((15, 13), (5, 16))]

/-- The `MAZES` dictionary. -/
def MAZES : List (Int × MazeConfig) := [(1, MAZE_1), (2, MAZE_2), (3, MAZE_3)]

/-- `get_maze`: `MAZES.get(maze_id)`. -/
def get_maze (maze_id : Int) : Option MazeConfig :=
  (MAZES.find? (fun im => im.1 == maze_id)).map Prod.snd

/-- `validate_move` from `Backend/mazes.py`: look the maze up, then run the
core validation. -/
def validate_move (maze_id : Int) (current_pos : Pos) (direction : String)
    (steps : Int) (collected_keys : List String)
    (collected_books : List String) : MoveResult :=
  match get_maze maze_id with
  | none => .invalid "Invalid maze ID"
  | some maze =>
    validate_move_core maze current_pos direction steps collected_keys
      collected_books

/-- The caller-visible per-session player state held by `main.py`
(`game_states[game_key]`). -/
structure GameState where
  position : Pos
  collected_keys : List String
  collected_books : List String
deriving DecidableEq, Repr

/-- The state update in `submit_move` (`main.py`): the stored game state is
overwritten from the result only when `result["valid"]`; a rejection leaves
it untouched. -/
def submit_move_update (s : GameState) (r : MoveResult) : GameState :=
  match r with
  | .invalid _ => s
  | .valid p ks bs _ => ⟨p, ks, bs⟩

/-- Association-list lookup for the color-indexed dictionaries
(`maze.books[color]`, `maze.doors[color]`). -/
def lookupColor (l : List (String × Pos)) (c : String) : Option Pos :=
  (l.find? (fun cp => cp.1 == c)).map Prod.snd

/-- The cell reached after `k` unit steps of the direction vector `d` from
`p`: the value of `(new_row, new_col)` after `k` iterations of the move
loop. -/
def stepCell (p : Pos) (d : Pos) (k : Nat) : Pos :=
  (p.1 + d.1 * k, p.2 + d.2 * k)

/-- A stepped cell passes one iteration of the move loop: not a
wall/boundary, and not a door locked against the held keys. -/
def stepOk (maze : MazeConfig) (collected_keys : List String) (c : Pos) :
    Prop :=
  blockedCell maze.grid c = false ∧
  lockedDoorAt maze.doors collected_keys c = none

instance (maze : MazeConfig) (ks : List String) (c : Pos) :
    Decidable (stepOk maze ks c) := by unfold stepOk; infer_instance

/-- Tiny maze whose red key and red book share a cell, exercising the
same-step unlock of book pickup. -/
def SAME_STEP_MAZE : MazeConfig where
  maze_id := 99
  name := "SameStep"
  grid := ["#####", "#   #", "#####"].map String.toList
  start_pos := (1, 1)
  keys := [("red", (1, 3))]
  doors := []
  books := [("red", (1, 3))]
  portals := []

/-- Tiny maze whose portal destination is a locked door's cell, exercising
the absence of a door re-check after teleport. -/
def PORTAL_DOOR_MAZE : MazeConfig where
  maze_id := 98
  name := "PortalDoor"
  grid := ["#####", "#   #", "#####"].map String.toList
  start_pos := (1, 1)
  keys := []
  doors := [("red", (1, 3))]
  books := []
  portals := [((1, 2), (1, 3))]

/-- The four stride-2 directions of `generate_maze`: up, right, down,
left. -/
def genDirections : List Pos := [(-2, 0), (0, 2), (2, 0), (0, -2)]

/-- `is_valid_cell` of `generate_maze`: within the height×width bounds. -/
def isValidCell (height width : Int) (p : Pos) : Bool :=
  decide (0 ≤ p.1) && decide (p.1 < height) &&
  decide (0 ≤ p.2) && decide (p.2 < width)

/-- Write one grid cell (`grid[r][c] = ch`); callers only use in-bounds
nonnegative positions. -/
def setCell (grid : List (List Char)) (p : Pos) (ch : Char) :
    List (List Char) :=
  grid.set p.1.toNat ((grid.getD p.1.toNat []).set p.2.toNat ch)

/-- `add_walls_to_list`: for each direction, the candidate (wall, neighbor)
pair is appended when both are in bounds and the neighbor is unvisited. -/
def add_walls_to_list (height width : Int) (visited : List Pos) (p : Pos) :
    List (Pos × Pos) :=
  genDirections.filterMap (fun d =>
    if isValidCell height width (p.1 + d.1, p.2 + d.2) &&
        isValidCell height width (p.1 + d.1 / 2, p.2 + d.2 / 2) &&
        !(visited.contains (p.1 + d.1, p.2 + d.2)) then
      some ((p.1 + d.1 / 2, p.2 + d.2 / 2), (p.1 + d.1, p.2 + d.2))
    else none)

/-- The wall entry selected by `random.randint(0, len(walls)-1)` at loop
iteration `t`, the random stream being modelled by `choice`. -/
def pickedWall (choice : Nat → Nat) (t : Nat) (walls : List (Pos × Pos)) :
    Pos × Pos :=
  walls.getD (choice t % walls.length) ((0, 0), (0, 0))

/-- `walls.pop(wall_index)`: the list with the selected entry removed. -/
def poppedWalls (choice : Nat → Nat) (t : Nat) (walls : List (Pos × Pos)) :
    List (Pos × Pos) :=
  walls.eraseIdx (choice t % walls.length)

/-- All in-bounds cells of a height×width grid, row-major. -/
def allCells (height width : Int) : List Pos :=
  (List.range height.toNat).flatMap (fun (r : Nat) =>
    (List.range width.toNat).map (fun (c : Nat) => ((r : Int), (c : Int))))

/-- Number of in-bounds cells not yet visited; the loop measure together
with the frontier length. -/
def unvisitedCount (height width : Int) (visited : List Pos) : Nat :=
  (allCells height width).countP (fun p => !(visited.contains p))

theorem countP_lt_of_witness (l : List Pos) (p q : Pos → Bool)
    (himp : ∀ x ∈ l, q x = true → p x = true) (x : Pos) (hx : x ∈ l)
    (hpx : p x = true) (hqx : q x = false) : l.countP q < l.countP p := by
  induction l with
  | nil => cases hx
  | cons a t ih =>
    rcases List.mem_cons.1 hx with rfl | hx
    · have hle : t.countP q ≤ t.countP p := by
        apply List.countP_mono_left
        intro y hy
        exact himp y (List.mem_cons_of_mem _ hy)
      rw [List.countP_cons_of_pos _ _ hpx,
        List.countP_cons_of_neg _ _ (by simp [hqx])]
      omega
    · have hlt := ih (fun y hy => himp y (List.mem_cons_of_mem _ hy)) hx
      by_cases hq : q a = true
      · rw [List.countP_cons_of_pos _ _ hq,
          List.countP_cons_of_pos _ _ (himp a (List.mem_cons_self _ _) hq)]
        omega
      · rw [List.countP_cons_of_neg _ _ hq]
        by_cases hp : p a = true
        · rw [List.countP_cons_of_pos _ _ hp]
          omega
        · rw [List.countP_cons_of_neg _ _ hp]
          exact hlt

theorem mem_allCells (height width : Int) (p : Pos) :
    p ∈ allCells height width ↔ isValidCell height width p = true := by
  constructor
  · intro hp
    unfold allCells at hp
    obtain ⟨r, hr, hp⟩ := List.mem_flatMap.1 hp
    obtain ⟨c, hc, heq⟩ := List.mem_map.1 hp
    rw [List.mem_range] at hr hc
    subst heq
    unfold isValidCell
    simp only [Bool.and_eq_true, decide_eq_true_eq]
    refine ⟨⟨⟨?_, ?_⟩, ?_⟩, ?_⟩ <;> omega
  · intro hp
    unfold isValidCell at hp
    simp only [Bool.and_eq_true, decide_eq_true_eq] at hp
    obtain ⟨⟨⟨h1, h2⟩, h3⟩, h4⟩ := hp
    unfold allCells
    refine List.mem_flatMap.2 ⟨p.1.toNat, ?_, ?_⟩
    · rw [List.mem_range]
      omega
    · refine List.mem_map.2 ⟨p.2.toNat, ?_, ?_⟩
      · rw [List.mem_range]
        omega
      · refine Prod.ext ?_ ?_ <;> simp <;> omega

theorem unvisitedCount_append_lt (height width : Int) (visited : List Pos)
    (c : Pos) (hc : isValidCell height width c = true) (hnv : c ∉ visited) :
    unvisitedCount height width (visited ++ [c]) <
      unvisitedCount height width visited := by
  refine countP_lt_of_witness _ _ _ ?_ c
    ((mem_allCells height width c).2 hc) ?_ ?_
  · intro x _ hq
    have hx : x ∉ visited ++ [c] := by simpa using hq
    have hxv : x ∉ visited := fun hmem => hx (List.mem_append.2 (Or.inl hmem))
    simpa using hxv
  · simpa using hnv
  · simp

theorem add_walls_length_le (height width : Int) (visited : List Pos)
    (p : Pos) : (add_walls_to_list height width visited p).length ≤ 4 := by
  unfold add_walls_to_list
  exact List.length_filterMap_le _ _

theorem poppedWalls_length (choice : Nat → Nat) (t : Nat)
    (walls : List (Pos × Pos)) (hne : walls ≠ []) :
    (poppedWalls choice t walls).length = walls.length - 1 := by
  unfold poppedWalls
  rw [List.length_eraseIdx]
  have : 0 < walls.length := List.length_pos.2 hne
  simp [Nat.mod_lt _ this]

/-- The Prim carving loop of `generate_maze` (`while walls:`).  The state is
(grid, visited, walls, edges); `edges` records the accepted (wall, neighbor)
pops in order and does not influence the computation — it is the trace the
correctness argument reasons over.  Returns the state at loop exit. -/
def primLoop (height width : Int) (choice : Nat → Nat) (t : Nat)
    (grid : List (List Char)) (visited : List Pos)
    (walls : List (Pos × Pos)) (edges : List (Pos × Pos)) :
    List (List Char) × List Pos × List (Pos × Pos) × List (Pos × Pos) :=
  if hemp : walls.isEmpty then (grid, visited, walls, edges)
  else
    if hacc : !(visited.contains (pickedWall choice t walls).2) &&
        isValidCell height width (pickedWall choice t walls).2 then
      primLoop height width choice (t + 1)
        (setCell (setCell grid (pickedWall choice t walls).1 ' ')
          (pickedWall choice t walls).2 ' ')
        (visited ++ [(pickedWall choice t walls).2])
        (poppedWalls choice t walls ++
          add_walls_to_list height width
            (visited ++ [(pickedWall choice t walls).2])
            (pickedWall choice t walls).2)
        (edges ++ [pickedWall choice t walls])
    else
      primLoop height width choice (t + 1) grid visited
        (poppedWalls choice t walls) edges
termination_by 4 * unvisitedCount height width visited + walls.length
decreasing_by
  · have hne : walls ≠ [] := by
      intro h
      rw [h] at hemp
      exact hemp rfl
    have hlen := poppedWalls_length choice t walls hne
    have hadd := add_walls_length_le height width
      (visited ++ [(pickedWall choice t walls).2]) (pickedWall choice t walls).2
    have hpos : 0 < walls.length := List.length_pos.2 hne
    have hacc' : (pickedWall choice t walls).2 ∉ visited ∧
        isValidCell height width (pickedWall choice t walls).2 = true := by
      simpa using hacc
    have hdec := unvisitedCount_append_lt height width visited
      (pickedWall choice t walls).2 hacc'.2 hacc'.1
    rw [List.length_append, hlen]
    omega
  · have hne : walls ≠ [] := by
      intro h
      rw [h] at hemp
      exact hemp rfl
    have hlen := poppedWalls_length choice t walls hne
    have hpos : 0 < walls.length := List.length_pos.2 hne
    rw [hlen]
    omega

/-- `generate_maze` from `Backend/maze_generator.py`, instrumented: all
walls, then carve `start` and run the Prim loop seeded with its candidate
walls.  The first component is the grid the source returns; the rest is the
final loop state (visited cells, leftover frontier, accepted pops). -/
def generate_maze_full (width height : Int) (start : Pos)
    (choice : Nat → Nat) :
    List (List Char) × List Pos × List (Pos × Pos) × List (Pos × Pos) :=
  primLoop height width choice 0
    (setCell (List.replicate height.toNat (List.replicate width.toNat '#'))
      start ' ')
    [start]
    (add_walls_to_list height width [start] start)
    []

/-- The grid `generate_maze` returns. -/
def generate_maze (width height : Int) (start : Pos) (choice : Nat → Nat) :
    List (List Char) :=
  (generate_maze_full width height start choice).1

/-- The width/height adjustment of `generate_complete_maze`: even
dimensions are incremented before carving. -/
def adjustDim (n : Int) : Int := if n % 2 == 0 then n + 1 else n

/-- The grid produced by `generate_complete_maze`: carve with the adjusted
dimensions. -/
def generate_complete_maze_grid (width height : Int) (start : Pos)
    (choice : Nat → Nat) : List (List Char) :=
  generate_maze (adjustDim width) (adjustDim height) start choice

/-- A grid cell that is inside the grid and open floor. -/
def openCell (grid : List (List Char)) (p : Pos) : Bool :=
  inBoundsCell grid p && (cellAt grid p == ' ')

/-- Two cells at unit (4-neighbour) distance. -/
def unitAdj (a b : Pos) : Prop :=
  (a.1 = b.1 ∧ (a.2 = b.2 + 1 ∨ b.2 = a.2 + 1)) ∨
  (a.2 = b.2 ∧ (a.1 = b.1 + 1 ∨ b.1 = a.1 + 1))

/-- The graph on grid positions whose edges join open cells at unit
distance: how the player walks the generated maze. -/
def mazeGraph (grid : List (List Char)) : SimpleGraph Pos where
  Adj a b := openCell grid a = true ∧ openCell grid b = true ∧ unitAdj a b
  symm := by
    intro a b h
    refine ⟨h.2.1, h.1, ?_⟩
    rcases h.2.2 with ⟨h1, h2⟩ | ⟨h1, h2⟩
    · exact Or.inl ⟨h1.symm, h2.symm⟩
    · exact Or.inr ⟨h1.symm, h2.symm⟩
  loopless := by
    intro a h
    rcases h.2.2 with ⟨-, h2 | h2⟩ | ⟨-, h2 | h2⟩ <;> omega

/-- Reachability through in-bounds stride-2 steps from the start, ignoring
walls: the lattice cells carving could ever reach. -/
inductive LatReach (height width : Int) (start : Pos) : Pos → Prop where
  | base : LatReach height width start start
  | step (p d : Pos) : LatReach height width start p → d ∈ genDirections →
      isValidCell height width (p.1 + d.1, p.2 + d.2) = true →
      LatReach height width start (p.1 + d.1, p.2 + d.2)

/-- The lattice cell a (wall, neighbor) pair was proposed from: the wall is
its midpoint towards the neighbor. -/
def vOf (e : Pos × Pos) : Pos := (2 * e.1.1 - e.2.1, 2 * e.1.2 - e.2.2)

/-- The carved cells in carving order: the start, then the wall and
neighbor cell of each accepted pop. -/
def openOrder (start : Pos) (edges : List (Pos × Pos)) : List Pos :=
  start :: edges.flatMap (fun e => [e.1, e.2])

/-- Both coordinate offsets from `b` even: `a` sits on `b`'s stride-2
lattice. -/
def sameParity (a b : Pos) : Prop :=
  (a.1 - b.1) % 2 = 0 ∧ (a.2 - b.2) % 2 = 0

/-- Exactly one coordinate offset from `s` odd: a wall cell between two
lattice cells. -/
def wallParity (s w : Pos) : Prop :=
  ((w.1 - s.1) % 2 = 0 ∧ (w.2 - s.2) % 2 ≠ 0) ∨
  ((w.1 - s.1) % 2 ≠ 0 ∧ (w.2 - s.2) % 2 = 0)

/-- Uniform grid dimensions. -/
def gridDims (height width : Int) (g : List (List Char)) : Prop :=
  g.length = height.toNat ∧ ∀ row ∈ g, row.length = width.toNat

/-- The loop invariant of the Prim carving loop.  `visited` is exactly the
start plus the accepted neighbors in order; the carved cells are pairwise
distinct; every frontier entry joins a visited cell to an in-bounds
neighbor through its midpoint wall; every in-bounds lattice step from a
visited cell leads to a visited cell or is covered by a frontier entry;
each accepted edge hangs off an earlier-visited cell; and the grid's open
cells are exactly the carved ones. -/
structure PrimInv (height width : Int) (start : Pos)
    (grid : List (List Char)) (visited : List Pos)
    (walls : List (Pos × Pos)) (edges : List (Pos × Pos)) : Prop where
  visited_eq : visited = start :: edges.map Prod.snd
  order_nodup : (openOrder start edges).Nodup
  visited_valid : ∀ v ∈ visited, isValidCell height width v = true
  visited_parity : ∀ v ∈ visited, sameParity v start
  walls_shape : ∀ e ∈ walls, ∃ d ∈ genDirections, ∃ v ∈ visited,
    e.1 = (v.1 + d.1 / 2, v.2 + d.2 / 2) ∧ e.2 = (v.1 + d.1, v.2 + d.2) ∧
    isValidCell height width e.1 = true ∧ isValidCell height width e.2 = true
  closure : ∀ v ∈ visited, ∀ d ∈ genDirections,
    isValidCell height width (v.1 + d.1, v.2 + d.2) = true →
    (v.1 + d.1, v.2 + d.2) ∈ visited ∨
    ∃ w, (w, (v.1 + d.1, v.2 + d.2)) ∈ walls
  edges_shape : ∀ e ∈ edges, ∃ d ∈ genDirections, ∃ v : Pos,
    e.1 = (v.1 + d.1 / 2, v.2 + d.2 / 2) ∧ e.2 = (v.1 + d.1, v.2 + d.2) ∧
    isValidCell height width e.1 = true ∧ isValidCell height width e.2 = true
  edges_parent : ∀ (i : Nat) (h : i < edges.length),
    vOf edges[i] ∈ start :: (edges.take i).map Prod.snd
  grid_dims : gridDims height width grid
  grid_open : ∀ p, openCell grid p = true ↔ p ∈ openOrder start edges

/-- The fixed color palette of `place_special_items`. -/
def colors : List String := ["blue", "orange", "green", "purple", "red"]

/-- `empty_cells` of `place_special_items`: all open cells other than the
start, scanned row-major. -/
def emptyCells (grid : List (List Char)) (start : Pos) : List Pos :=
  (List.range grid.length).flatMap (fun r =>
    (List.range (grid.headD []).length).filterMap (fun c =>
      if (grid.getD r []).getD c '#' = ' ' ∧ ((r : Int), (c : Int)) ≠ start
      then some ((r : Int), (c : Int)) else none))

/-- The key/door/book placement loop of `place_special_items`: for each of
`n` colors in palette order, pop one cell off the end of the list for the
key, then another for the door, recording the door cell as the book cell
too (the returned second component serves as both the door and the book
dictionary).  The guards mirror the source's `if empty_cells:` checks. -/
def placeKD : Nat → List String → List Pos →
    List (String × Pos) × List (String × Pos) × List Pos
  | 0, _, cells => ([], [], cells)
  | _ + 1, [], cells => ([], [], cells)
  | n + 1, color :: cs, cells =>
    match cells.getLast? with
    | none => placeKD n cs cells
    | some kpos =>
      match cells.dropLast.getLast? with
      | none =>
        let r := placeKD n cs cells.dropLast
        ((color, kpos) :: r.1, r.2.1, r.2.2)
      | some dpos =>
        let r := placeKD n cs cells.dropLast.dropLast
        ((color, kpos) :: r.1, (color, dpos) :: r.2.1, r.2.2)

/-- The portal placement loop of `place_special_items`: indices
`i = 0, 2, 4, ...` below `m`; when `i+1` is still inside the remaining cell
list, cells `i` and `i+1` become a symmetric portal pair. -/
def portalPairs (rem : List Pos) (m : Nat) (i : Nat) : List (Pos × Pos) :=
  if i < m then
    (if i + 1 < rem.length then
       match rem[i]?, rem[i + 1]? with
       | some a, some b => [(a, b), (b, a)]
       | _, _ => []
     else []) ++ portalPairs rem m (i + 2)
  else []
termination_by m - i
decreasing_by omega

/-- `place_special_items` from `Backend/maze_generator.py`, with the
`random.shuffle` call abstracted as an explicit `shuffle` function on the
collected cell list.  Returns (keys, doors, books, portals); the book
dictionary is the door dictionary (same colors, same positions). -/
def place_special_items (grid : List (List Char)) (start : Pos)
    (num_keys _num_doors num_portals : Nat) (shuffle : List Pos → List Pos) :
    List (String × Pos) × List (String × Pos) × List (String × Pos) ×
      List (Pos × Pos) :=
  let cells := shuffle (emptyCells grid start)
  let n := min num_keys (min colors.length (cells.length / 2))
  let r := placeKD n colors cells
  let portals := portalPairs r.2.2 (min (num_portals * 2) r.2.2.length) 0
  (r.1, r.2.1, r.2.1, portals)

/-- A position that is in bounds, open floor, and distinct from the start. -/
def openNonStart (grid : List (List Char)) (start : Pos) (p : Pos) : Prop :=
  inBoundsCell grid p = true ∧ cellAt grid p = ' ' ∧ p ≠ start

instance (g : List (List Char)) (s p : Pos) :
    Decidable (openNonStart g s p) := by
  unfold openNonStart
  infer_instance

/-- The MazeDefinition invariant of the claim: every key/door/book position
and both cells of every portal entry are open in-bounds cells distinct from
the start; the portal map is symmetric; and each door's same-color book is
recorded at the door's own position. -/
def mazeItemInvariant (grid : List (List Char)) (start : Pos)
    (keys doors books : List (String × Pos)) (portals : List (Pos × Pos)) :
    Prop :=
  (∀ cp ∈ keys, openNonStart grid start cp.2) ∧
  (∀ cp ∈ doors, openNonStart grid start cp.2) ∧
  (∀ cp ∈ books, openNonStart grid start cp.2) ∧
  (∀ ab ∈ portals, openNonStart grid start ab.1 ∧
    openNonStart grid start ab.2 ∧ portalDest portals ab.2 = some ab.1) ∧
  (∀ cp ∈ doors, lookupColor books cp.1 = some cp.2)

instance (g : List (List Char)) (s : Pos) (ks ds bs : List (String × Pos))
    (ps : List (Pos × Pos)) : Decidable (mazeItemInvariant g s ks ds bs ps) := by
  unfold mazeItemInvariant
  infer_instance

/-- The invariant instantiated at the three shipped mazes. -/
def shippedMazeInvariants : Prop :=
  mazeItemInvariant MAZE_1.grid MAZE_1.start_pos MAZE_1.keys MAZE_1.doors
    MAZE_1.books MAZE_1.portals ∧
  mazeItemInvariant MAZE_2.grid MAZE_2.start_pos MAZE_2.keys MAZE_2.doors
    MAZE_2.books MAZE_2.portals ∧
  mazeItemInvariant MAZE_3.grid MAZE_3.start_pos MAZE_3.keys MAZE_3.doors
    MAZE_3.books MAZE_3.portals

instance : Decidable shippedMazeInvariants := by
  unfold shippedMazeInvariants
  infer_instance

/-- Rank of a cell in a list: index of its first occurrence (length when
absent).  Used as the carving-time rank in the acyclicity argument. -/
def posIdx (l : List Pos) (x : Pos) : Nat :=
  match l with
  | [] => 0
  | a :: t => if a = x then 0 else posIdx t x + 1

theorem stepCell_zero (p d : Pos) : stepCell p d 0 = p := by
  simp [stepCell]

theorem stepCell_one (p d : Pos) : stepCell p d 1 = (p.1 + d.1, p.2 + d.2) := by
  simp [stepCell]

theorem stepCell_succ (p d : Pos) (k : Nat) :
    stepCell p d (k + 1) = stepCell (p.1 + d.1, p.2 + d.2) d k := by
  simp only [stepCell, Prod.mk.injEq]
  constructor <;> (push_cast; ring)

/-- If every stepped cell passes, the move loop lands on the `n`-th stepped
cell. -/
theorem stepLoop_ok_of_all (maze : MazeConfig) (keys : List String) (d : Pos)
    (n : Nat) (p : Pos)
    (h : ∀ k, k < n → stepOk maze keys (stepCell p d (k + 1))) :
    stepLoop maze keys d n p = .ok (stepCell p d n) := by
  induction n generalizing p with
  | zero => simp [stepLoop, stepCell]
  | succ n ih =>
    have h0 := h 0 n.succ_pos
    rw [stepCell_one] at h0
    show (if blockedCell maze.grid (p.1 + d.1, p.2 + d.2) then _
          else _) = _
    rw [h0.1]
    simp only [Bool.false_eq_true, if_false, h0.2]
    rw [stepCell_succ]
    exact ih (p.1 + d.1, p.2 + d.2) (fun k hk => by
      have hs := h (k + 1) (by omega)
      rwa [stepCell_succ] at hs)

/-- If the move loop succeeds, it landed on the `n`-th stepped cell and every
stepped cell passed both checks. -/
theorem stepLoop_ok_inv (maze : MazeConfig) (keys : List String) (d : Pos)
    (n : Nat) (p q : Pos)
    (h : stepLoop maze keys d n p = .ok q) :
    q = stepCell p d n ∧ ∀ k, k < n → stepOk maze keys (stepCell p d (k + 1)) := by
  induction n generalizing p with
  | zero =>
    simp only [stepLoop, Except.ok.injEq] at h
    exact ⟨h ▸ (stepCell_zero p d).symm, by omega⟩
  | succ n ih =>
    rw [show stepLoop maze keys d (n + 1) p =
          (if blockedCell maze.grid (p.1 + d.1, p.2 + d.2) then
             .error "Hit wall or boundary"
           else
             match lockedDoorAt maze.doors keys (p.1 + d.1, p.2 + d.2) with
             | some color => .error ("Need " ++ color ++ " key to pass")
             | none => stepLoop maze keys d n (p.1 + d.1, p.2 + d.2))
        from rfl] at h
    cases hb : blockedCell maze.grid (p.1 + d.1, p.2 + d.2) with
    | true => rw [hb] at h; simp at h
    | false =>
      rw [hb] at h
      simp only [Bool.false_eq_true, if_false] at h
      cases hd : lockedDoorAt maze.doors keys (p.1 + d.1, p.2 + d.2) with
      | some color => rw [hd] at h; simp at h
      | none =>
        rw [hd] at h
        obtain ⟨hq, hall⟩ := ih (p.1 + d.1, p.2 + d.2) h
        refine ⟨by rw [stepCell_succ]; exact hq, fun k hk => ?_⟩
        cases k with
        | zero => rw [stepCell_one]; exact ⟨hb, hd⟩
        | succ j =>
          rw [stepCell_succ]
          exact hall j (by omega)

/-- If cells `1..k` pass and cell `k+1` hits a wall or the boundary, the loop
fails with the wall error. -/
theorem stepLoop_blocked (maze : MazeConfig) (keys : List String) (d : Pos)
    (n k : Nat) (p : Pos) (hk : k < n)
    (hpre : ∀ j, j < k → stepOk maze keys (stepCell p d (j + 1)))
    (hb : blockedCell maze.grid (stepCell p d (k + 1)) = true) :
    stepLoop maze keys d n p = .error "Hit wall or boundary" := by
  induction n generalizing p k with
  | zero => omega
  | succ n ih =>
    show (if blockedCell maze.grid (p.1 + d.1, p.2 + d.2) then _
          else _) = _
    cases k with
    | zero =>
      rw [stepCell_one] at hb
      rw [hb]
      simp
    | succ j =>
      have h0 := hpre 0 j.succ_pos
      rw [stepCell_one] at h0
      rw [h0.1]
      simp only [Bool.false_eq_true, if_false, h0.2]
      refine ih j (p.1 + d.1, p.2 + d.2) (by omega) (fun i hi => ?_) ?_
      · have hs := hpre (i + 1) (by omega)
        rwa [stepCell_succ] at hs
      · rwa [stepCell_succ] at hb

/-- If cells `1..k` pass and cell `k+1` is an open cell carrying a door whose
key is not held, the loop fails with exactly the locked-door error for that
door's color. -/
theorem stepLoop_locked (maze : MazeConfig) (keys : List String) (d : Pos)
    (color : String) (n k : Nat) (p : Pos) (hk : k < n)
    (hpre : ∀ j, j < k → stepOk maze keys (stepCell p d (j + 1)))
    (hb : blockedCell maze.grid (stepCell p d (k + 1)) = false)
    (hd : lockedDoorAt maze.doors keys (stepCell p d (k + 1)) = some color) :
    stepLoop maze keys d n p = .error ("Need " ++ color ++ " key to pass") := by
  induction n generalizing p k with
  | zero => omega
  | succ n ih =>
    show (if blockedCell maze.grid (p.1 + d.1, p.2 + d.2) then _
          else _) = _
    cases k with
    | zero =>
      rw [stepCell_one] at hb hd
      rw [hb]
      simp only [Bool.false_eq_true, if_false, hd]
    | succ j =>
      have h0 := hpre 0 j.succ_pos
      rw [stepCell_one] at h0
      rw [h0.1]
      simp only [Bool.false_eq_true, if_false, h0.2]
      refine ih j (p.1 + d.1, p.2 + d.2) (by omega) (fun i hi => ?_) ?_ ?_
      · have hs := hpre (i + 1) (by omega)
        rwa [stepCell_succ] at hs
      · rwa [stepCell_succ] at hb
      · rwa [stepCell_succ] at hd

/-- Out of bounds implies the wall/boundary check trips. -/
theorem blockedCell_of_not_inBounds (g : List (List Char)) (p : Pos)
    (h : inBoundsCell g p = false) : blockedCell g p = true := by
  unfold inBoundsCell at h
  unfold blockedCell
  simp only [Bool.and_eq_false_iff, decide_eq_false_iff_not, not_le, not_lt] at h
  simp only [Bool.or_eq_true, decide_eq_true_eq]
  rcases h with ((h | h) | h) | h
  · exact Or.inl (Or.inl (Or.inl (Or.inl h)))
  · exact Or.inl (Or.inl (Or.inl (Or.inr h)))
  · exact Or.inl (Or.inl (Or.inr h))
  · exact Or.inl (Or.inr h)

/-- Unfolding `validate_move_core` on a successful walk. -/
theorem validate_move_core_ok (maze : MazeConfig) (pos : Pos)
    (direction : String) (steps : Int) (keys books : List String) (d : Pos)
    (landing : Pos)
    (hdir : directionMap direction = some d)
    (hsl : stepLoop maze keys d steps.toNat pos = .ok landing) :
    validate_move_core maze pos direction steps keys books =
      .valid (portalApply maze.portals landing)
        (collectKeys maze.keys (portalApply maze.portals landing) keys)
        (collectBooks maze.books (portalApply maze.portals landing)
          (collectKeys maze.keys (portalApply maze.portals landing) keys)
          books)
        ((collectBooks maze.books (portalApply maze.portals landing)
          (collectKeys maze.keys (portalApply maze.portals landing) keys)
          books).length == 5) := by
  unfold validate_move_core
  simp only [hdir, hsl]

/-- Unfolding `validate_move_core` on a failing walk. -/
theorem validate_move_core_err (maze : MazeConfig) (pos : Pos)
    (direction : String) (steps : Int) (keys books : List String) (d : Pos)
    (e : String)
    (hdir : directionMap direction = some d)
    (hsl : stepLoop maze keys d steps.toNat pos = .error e) :
    validate_move_core maze pos direction steps keys books = .invalid e := by
  unfold validate_move_core
  simp only [hdir, hsl]

/-- Inversion: a successful `validate_move_core` pins every output component
to the corresponding stage of the algorithm. -/
theorem validate_move_core_valid_inv (maze : MazeConfig) (pos : Pos)
    (direction : String) (steps : Int) (keys books : List String) (f : Pos)
    (ks bs : List String) (w : Bool)
    (h : validate_move_core maze pos direction steps keys books =
      .valid f ks bs w) :
    ∃ d landing, directionMap direction = some d ∧
      stepLoop maze keys d steps.toNat pos = .ok landing ∧
      f = portalApply maze.portals landing ∧
      ks = collectKeys maze.keys f keys ∧
      bs = collectBooks maze.books f ks books ∧
      w = (bs.length == 5) := by
  unfold validate_move_core at h
  cases hdir : directionMap direction with
  | none => rw [hdir] at h; simp at h
  | some d =>
    simp only [hdir] at h
    cases hsl : stepLoop maze keys d steps.toNat pos with
    | error e => simp only [hsl] at h; exact (MoveResult.noConfusion h)
    | ok landing =>
      simp only [hsl, MoveResult.valid.injEq] at h
      obtain ⟨hf, hks, hbs, hw⟩ := h
      subst hf hks hbs hw
      exact ⟨d, landing, rfl, hsl, rfl, rfl, rfl, rfl⟩

/-- Membership in the book-collection fold: a color is in the outgoing book
list iff it was already there, or some book entry of that color sits at the
final cell and the color's key is held (the duplicate guard in the loop only
prevents double insertion). -/
theorem mem_collectBooks (l : List (String × Pos)) (f : Pos)
    (ks : List String) :
    ∀ (acc : List String) (c : String),
      c ∈ collectBooks l f ks acc ↔
        c ∈ acc ∨ ∃ p, (c, p) ∈ l ∧ p = f ∧ c ∈ ks := by
  induction l with
  | nil =>
    intro acc c
    simp [collectBooks]
  | cons x t ih =>
    intro acc c
    have hstep : collectBooks (x :: t) f ks acc =
        collectBooks t f ks
          (if x.2 == f && ks.contains x.1 && !(acc.contains x.1) then
            acc ++ [x.1] else acc) := rfl
    rw [hstep]
    by_cases hc : (x.2 == f && ks.contains x.1 && !(acc.contains x.1)) = true
    · rw [if_pos hc, ih]
      simp only [Bool.and_eq_true, beq_iff_eq, Bool.not_eq_true'] at hc
      have hxf : x.2 = f := hc.1.1
      have hxk : x.1 ∈ ks := by
        have := hc.1.2
        simpa using this
      constructor
      · rintro (hca | ⟨p, hp, rfl, hcks⟩)
        · rcases List.mem_append.1 hca with hca | hca
          · exact Or.inl hca
          · have hcx : c = x.1 := by simpa using hca
            subst hcx
            exact Or.inr ⟨x.2, List.mem_cons_self x t, hxf, hxk⟩
        · exact Or.inr ⟨p, List.mem_cons_of_mem x hp, rfl, hcks⟩
      · rintro (hca | ⟨p, hp, rfl, hcks⟩)
        · exact Or.inl (List.mem_append.2 (Or.inl hca))
        · rcases List.mem_cons.1 hp with hp | hp
          · have hx : c = x.1 ∧ p = x.2 := by simpa [Prod.ext_iff] using hp
            exact Or.inl (List.mem_append.2 (Or.inr (by simp [hx.1])))
          · exact Or.inr ⟨p, hp, rfl, hcks⟩
    · rw [if_neg hc, ih]
      constructor
      · rintro (hca | ⟨p, hp, rfl, hcks⟩)
        · exact Or.inl hca
        · exact Or.inr ⟨p, List.mem_cons_of_mem x hp, rfl, hcks⟩
      · rintro (hca | ⟨p, hp, rfl, hcks⟩)
        · exact Or.inl hca
        · rcases List.mem_cons.1 hp with hp | hp
          · have hx : c = x.1 ∧ p = x.2 := by simpa [Prod.ext_iff] using hp
            by_cases hacc : x.1 ∈ acc
            · exact Or.inl (hx.1 ▸ hacc)
            · exfalso
              apply hc
              simp only [Bool.and_eq_true, beq_iff_eq, Bool.not_eq_true']
              refine ⟨⟨hx.2.symm, by simpa using hx.1 ▸ hcks⟩, by simpa using hacc⟩
          · exact Or.inr ⟨p, hp, rfl, hcks⟩

/-- First-match association-list lookup agrees with membership when the
color keys are distinct (as in every maze dictionary). -/
theorem lookupColor_iff_mem (l : List (String × Pos)) (c : String) (p : Pos) :
    (l.map Prod.fst).Nodup → (lookupColor l c = some p ↔ (c, p) ∈ l) := by
  induction l with
  | nil => intro _; simp [lookupColor]
  | cons x t ih =>
    intro hnd
    rw [List.map_cons, List.nodup_cons] at hnd
    by_cases hx : x.1 = c
    · have hfind : lookupColor (x :: t) c = some x.2 := by
        simp [lookupColor, List.find?_cons, hx]
      rw [hfind]
      constructor
      · rintro hp
        have : x.2 = p := by simpa using hp
        subst this
        have hxx : (c, x.2) = x := by
          refine Prod.ext ?_ ?_ <;> simp [hx.symm]
        exact hxx ▸ List.mem_cons_self x t
      · intro hmem
        rcases List.mem_cons.1 hmem with hmem | hmem
        · have hcp : c = x.1 ∧ p = x.2 := by simpa [Prod.ext_iff] using hmem
          rw [hcp.2]
        · exfalso
          refine hnd.1 ?_
          rw [hx]
          exact List.mem_map.2 ⟨(c, p), hmem, rfl⟩
    · have hfind : lookupColor (x :: t) c = lookupColor t c := by
        simp [lookupColor, List.find?_cons, hx]
      rw [hfind, ih hnd.2]
      constructor
      · exact fun h => List.mem_cons_of_mem x h
      · intro hmem
        rcases List.mem_cons.1 hmem with hmem | hmem
        · have hcp : c = x.1 ∧ p = x.2 := by simpa [Prod.ext_iff] using hmem
          exact absurd hcp.1.symm hx
        · exact hmem

/-- **C1.** If any step of a move fails (wall/boundary collision or a locked
door at any intermediate or final cell), `validate_move` returns a rejection
`{valid: false, error: e}` carrying no new state, and the caller of
`submit_move` leaves the stored `PlayerState` exactly as it was: no partial
movement is applied.  In particular a step landing out of bounds forces a
rejection (second conjunct), and when the first failing cell is a
wall/boundary the error is exactly "Hit wall or boundary" — never a silent
clamp to the furthest reachable cell (third conjunct). -/
theorem c1_rejection_aborts_whole_move (maze : MazeConfig) (pos : Pos)
    (direction : String) (d : Pos) (steps : Int) (keys books : List String)
    (hdir : directionMap direction = some d) :
    (∀ e s, validate_move_core maze pos direction steps keys books =
        .invalid e →
      submit_move_update s
        (validate_move_core maze pos direction steps keys books) = s) ∧
    (∀ k, k < steps.toNat →
      inBoundsCell maze.grid (stepCell pos d (k + 1)) = false →
      ∃ e, validate_move_core maze pos direction steps keys books =
        .invalid e) ∧
    (∀ k, k < steps.toNat →
      (∀ j, j < k → stepOk maze keys (stepCell pos d (j + 1))) →
      blockedCell maze.grid (stepCell pos d (k + 1)) = true →
      validate_move_core maze pos direction steps keys books =
        .invalid "Hit wall or boundary") := by
  refine ⟨fun e s h => by rw [h]; rfl, fun k hk hoob => ?_,
    fun k hk hpre hb => ?_⟩
  · cases hres : validate_move_core maze pos direction steps keys books with
    | invalid e => exact ⟨e, rfl⟩
    | valid f ks bs w =>
      obtain ⟨d', landing, hd', hsl, -⟩ :=
        validate_move_core_valid_inv maze pos direction steps keys books
          f ks bs w hres
      have hdd : d = d' := by
        rw [hdir] at hd'
        exact Option.some.inj hd'
      subst hdd
      obtain ⟨-, hall⟩ := stepLoop_ok_inv maze keys d steps.toNat pos landing hsl
      have hopen := (hall k hk).1
      rw [blockedCell_of_not_inBounds maze.grid (stepCell pos d (k + 1)) hoob]
        at hopen
      exact absurd hopen (by simp)
  · exact validate_move_core_err maze pos direction steps keys books d _ hdir
      (stepLoop_blocked maze keys d steps.toNat k pos hk hpre hb)

/-- Witness for C1: in maze 1, moving up 10 steps from the start hits the
border wall on the first step; the move is rejected with the wall error and
the caller's state is untouched. -/
theorem c1_witness :
    validate_move 1 (1, 1) "up" 10 [] [] = .invalid "Hit wall or boundary" ∧
    submit_move_update ⟨(1, 1), [], []⟩ (validate_move 1 (1, 1) "up" 10 [] []) =
      ⟨(1, 1), [], []⟩ := by
  have h := c1_rejection_aborts_whole_move MAZE_1 (1, 1) "up" (-1, 0) 10 [] []
    (by decide)
  have h3 := h.2.2 0 (by decide) (by decide) (by decide)
  have hv : validate_move 1 (1, 1) "up" 10 [] [] =
      validate_move_core MAZE_1 (1, 1) "up" 10 [] [] := rfl
  refine ⟨hv.trans h3, ?_⟩
  rw [hv]
  exact h.1 "Hit wall or boundary" ⟨(1, 1), [], []⟩ h3

/-- **C2.** Each stepped cell is validated in order; when the cells before
step `k+1` all pass, cell `k+1` is open floor, and the first locked door
entry at cell `k+1` has color `color` not in the key set, `validate_move`
rejects with exactly "Need {color} key to pass" — whether the door is an
intermediate or the final cell — and the caller state is unchanged. -/
theorem c2_locked_door_exact_error (maze : MazeConfig) (pos : Pos)
    (direction : String) (d : Pos) (steps : Int) (keys books : List String)
    (k : Nat) (color : String)
    (hdir : directionMap direction = some d)
    (hk : k < steps.toNat)
    (hpre : ∀ j, j < k → stepOk maze keys (stepCell pos d (j + 1)))
    (hopen : blockedCell maze.grid (stepCell pos d (k + 1)) = false)
    (hdoor : lockedDoorAt maze.doors keys (stepCell pos d (k + 1)) =
      some color) :
    validate_move_core maze pos direction steps keys books =
      .invalid ("Need " ++ color ++ " key to pass") ∧
    ∀ s, submit_move_update s
      (validate_move_core maze pos direction steps keys books) = s := by
  have he := validate_move_core_err maze pos direction steps keys books d _
    hdir (stepLoop_locked maze keys d color steps.toNat k pos hk hpre hopen
      hdoor)
  exact ⟨he, fun s => by rw [he]; rfl⟩

/-- Witness for C2: maze 1, start (1,1), move right 6 reaches the blue door
at (1,7) with no blue key and is rejected with "Need blue key to pass";
position stays (1,1). -/
theorem c2_witness :
    validate_move 1 (1, 1) "right" 6 [] [] =
      .invalid "Need blue key to pass" ∧
    submit_move_update ⟨(1, 1), [], []⟩
      (validate_move 1 (1, 1) "right" 6 [] []) = ⟨(1, 1), [], []⟩ := by
  have h := c2_locked_door_exact_error MAZE_1 (1, 1) "right" (0, 1) 6 [] [] 5
    "blue" (by decide) (by decide) (by decide) (by decide) (by decide)
  have hv : validate_move 1 (1, 1) "right" 6 [] [] =
      validate_move_core MAZE_1 (1, 1) "right" 6 [] [] := rfl
  exact ⟨hv.trans (h.1.trans (by decide)), by rw [hv]; exact h.2 _⟩

/-- **C3.** For every accepted move whose landing cell is a portal source,
the final position is the portal's mapped destination, applied exactly once:
the conclusion returns the single-lookup destination `q` unchanged, and no
hypothesis about `q` (walls, doors, bounds, or `q` being itself a portal
source) is required — the teleport is unconditional and never chained. -/
theorem c3_portal_single_hop (maze : MazeConfig) (pos : Pos)
    (direction : String) (d : Pos) (steps : Int) (keys books : List String)
    (landing q : Pos)
    (hdir : directionMap direction = some d)
    (hsl : stepLoop maze keys d steps.toNat pos = .ok landing)
    (hq : portalDest maze.portals landing = some q) :
    validate_move_core maze pos direction steps keys books =
      .valid q (collectKeys maze.keys q keys)
        (collectBooks maze.books q (collectKeys maze.keys q keys) books)
        ((collectBooks maze.books q (collectKeys maze.keys q keys)
          books).length == 5) := by
  have hpa : portalApply maze.portals landing = q := by
    unfold portalApply
    rw [hq]
  have h := validate_move_core_ok maze pos direction steps keys books d
    landing hdir hsl
  rwa [hpa] at h

/-- Witness for C3: maze 1, one step right lands on the portal source (1,2)
and the player emerges at (9,6) — even though (9,6) is itself a portal source
mapping back to (1,2), no chaining happens. -/
theorem c3_witness :
    validate_move 1 (1, 1) "right" 1 [] [] = .valid (9, 6) [] [] false := by
  have h := c3_portal_single_hop MAZE_1 (1, 1) "right" (0, 1) 1 [] [] (1, 2)
    (9, 6) (by decide) (by decide) (by decide)
  have hv : validate_move 1 (1, 1) "right" 1 [] [] =
      validate_move_core MAZE_1 (1, 1) "right" 1 [] [] := rfl
  rw [hv, h]
  decide

/-- **C4.** In every accepted move, a color is in the outgoing book list iff
it was already held, or its book position (unique per color) is the final
cell, the color is in the *outgoing* key list — computed first, so a key
picked up at the same final cell counts (same-step unlock) — and it was not
already held.  The first conjunct pins the outgoing key list to the key
pickup pass run before book pickup. -/
theorem c4_book_pickup_characterization (maze : MazeConfig) (pos : Pos)
    (direction : String) (steps : Int) (keys books : List String) (f : Pos)
    (ks bs : List String) (w : Bool)
    (hnd : (maze.books.map Prod.fst).Nodup)
    (h : validate_move_core maze pos direction steps keys books =
      .valid f ks bs w) :
    ks = collectKeys maze.keys f keys ∧
    ∀ c, c ∈ bs ↔
      c ∈ books ∨
        (lookupColor maze.books c = some f ∧ c ∈ ks ∧ c ∉ books) := by
  obtain ⟨d, landing, -, -, hf, hks, hbs, -⟩ :=
    validate_move_core_valid_inv maze pos direction steps keys books f ks bs
      w h
  refine ⟨hks, fun c => ?_⟩
  rw [hbs, mem_collectBooks maze.books f ks books c]
  constructor
  · rintro (hcb | ⟨p, hmem, rfl, hcks⟩)
    · exact Or.inl hcb
    · by_cases hcb : c ∈ books
      · exact Or.inl hcb
      · exact Or.inr ⟨(lookupColor_iff_mem maze.books c p hnd).2 hmem, hcks,
          hcb⟩
  · rintro (hcb | ⟨hlk, hcks, hcb⟩)
    · exact Or.inl hcb
    · exact Or.inr ⟨f, (lookupColor_iff_mem maze.books c f hnd).1 hlk, rfl,
        hcks⟩

/-- Witness for C4: in a maze whose red key and red book share cell (1,3),
the accepted move right 2 collects key and book in the same call — the book
membership characterization holds with the same-step key. -/
theorem c4_witness :
    "red" ∈ (["red"] : List String) ↔
      "red" ∈ ([] : List String) ∨
        (lookupColor SAME_STEP_MAZE.books "red" = some (1, 3) ∧
          "red" ∈ (["red"] : List String) ∧ "red" ∉ ([] : List String)) := by
  exact (c4_book_pickup_characterization SAME_STEP_MAZE (1, 1) "right" 2 []
    [] (1, 3) ["red"] ["red"] false (by decide) (by decide)).2 "red"

/-- **C5.** For every accepted move, the returned `won` flag is true iff the
outgoing collected-book list has length exactly 5, independent of which
colors the books are. -/
theorem c5_won_iff_five_books (maze : MazeConfig) (pos : Pos)
    (direction : String) (steps : Int) (keys books : List String) (f : Pos)
    (ks bs : List String) (w : Bool)
    (h : validate_move_core maze pos direction steps keys books =
      .valid f ks bs w) :
    w = true ↔ bs.length = 5 := by
  obtain ⟨d, landing, -, -, -, -, -, hw⟩ :=
    validate_move_core_valid_inv maze pos direction steps keys books f ks bs
      w h
  subst hw
  simp

/-- Witness for C5: collecting the red book in maze 1 while already holding
the other four books yields `won = true` with book count 5. -/
theorem c5_witness :
    true = true ↔
      (["blue", "orange", "green", "purple", "red"] : List String).length
        = 5 := by
  exact c5_won_iff_five_books MAZE_1 (5, 5) "down" 1 ["red"]
    ["blue", "orange", "green", "purple"] (6, 5) ["red"]
    ["blue", "orange", "green", "purple", "red"] true (by decide)

/-- **C6 counterexample.** The claimed three-move sequence from the spec is
impossible: the first move right 3 does succeed (collecting the red key at
(1,4)), but the second move down 4 immediately hits the wall at (2,4) and is
rejected — the sequence never reaches (6,5). -/
theorem c6_counterexample :
    validate_move 1 (1, 1) "right" 3 [] [] = .valid (1, 4) ["red"] [] false ∧
    validate_move 1 (1, 4) "down" 4 ["red"] [] =
      .invalid "Hit wall or boundary" := by
  exact ⟨by decide, by decide⟩

/-- **C6 amended.** In maze 1 from (1,1), the move right 3 is accepted and
collects the red key, ending at (1,4); the subsequent move down 4 is
rejected with "Hit wall or boundary" (the cell (2,4) is a wall), leaving the
caller state at position (1,4) with the red key — the sequence does not end
at (6,5). -/
theorem c6_amended_sequence :
    validate_move 1 (1, 1) "right" 3 [] [] = .valid (1, 4) ["red"] [] false ∧
    validate_move 1 (1, 4) "down" 4 ["red"] [] =
      .invalid "Hit wall or boundary" ∧
    submit_move_update ⟨(1, 4), ["red"], []⟩
      (validate_move 1 (1, 4) "down" 4 ["red"] []) =
      ⟨(1, 4), ["red"], []⟩ := by
  refine ⟨by decide, by decide, by decide⟩

/-- **C9.** The positivity of `steps` is not enforced: for any non-positive
`steps` the loop runs zero iterations and the move is accepted with no
movement, yet the portal teleport and key/book pickup still run at the
player's current cell — standing on a portal source and submitting a
zero-step move teleports the player. -/
theorem c9_nonpositive_steps_still_interact (maze : MazeConfig) (pos : Pos)
    (direction : String) (d : Pos) (steps : Int) (keys books : List String)
    (hdir : directionMap direction = some d) (hs : steps ≤ 0) :
    validate_move_core maze pos direction steps keys books =
      .valid (portalApply maze.portals pos)
        (collectKeys maze.keys (portalApply maze.portals pos) keys)
        (collectBooks maze.books (portalApply maze.portals pos)
          (collectKeys maze.keys (portalApply maze.portals pos) keys) books)
        ((collectBooks maze.books (portalApply maze.portals pos)
          (collectKeys maze.keys (portalApply maze.portals pos) keys)
          books).length == 5) := by
  have h0 : steps.toNat = 0 := Int.toNat_of_nonpos hs
  have hsl : stepLoop maze keys d steps.toNat pos = .ok pos := by
    rw [h0]
    rfl
  exact validate_move_core_ok maze pos direction steps keys books d pos hdir
    hsl

/-- Witness for C9: a zero-step move in maze 1 while standing on the portal
source (1,2) is accepted and teleports the player to (9,6). -/
theorem c9_witness :
    validate_move 1 (1, 2) "up" 0 [] [] = .valid (9, 6) [] [] false := by
  have h := c9_nonpositive_steps_still_interact MAZE_1 (1, 2) "up" (-1, 0) 0
    [] [] (by decide) (by decide)
  have hv : validate_move 1 (1, 2) "up" 0 [] [] =
      validate_move_core MAZE_1 (1, 2) "up" 0 [] [] := rfl
  rw [hv, h]
  decide

/-- **C10.** The locked-door rejection is evaluated only on the stepped
cells, before the portal teleport: when every stepped cell passes and the
landing cell is a portal source whose destination `q` is the recorded
position of a door whose color is not held, the move is nonetheless accepted
and the player lands on the locked door's cell with no LockedDoor error. -/
theorem c10_no_door_check_after_portal (maze : MazeConfig) (pos : Pos)
    (direction : String) (d : Pos) (steps : Int) (keys books : List String)
    (landing q : Pos) (color : String)
    (hdir : directionMap direction = some d)
    (hsl : stepLoop maze keys d steps.toNat pos = .ok landing)
    (hq : portalDest maze.portals landing = some q)
    (_hdoor : lookupColor maze.doors color = some q)
    (_hnokey : color ∉ keys) :
    validate_move_core maze pos direction steps keys books =
      .valid q (collectKeys maze.keys q keys)
        (collectBooks maze.books q (collectKeys maze.keys q keys) books)
        ((collectBooks maze.books q (collectKeys maze.keys q keys)
          books).length == 5) := by
  have hpa : portalApply maze.portals landing = q := by
    unfold portalApply
    rw [hq]
  have h := validate_move_core_ok maze pos direction steps keys books d
    landing hdir hsl
  rwa [hpa] at h

theorem genDirections_cases (d : Pos) (hd : d ∈ genDirections) :
    d = (-2, 0) ∨ d = (0, 2) ∨ d = (2, 0) ∨ d = (0, -2) := by
  simpa [genDirections] using hd

theorem vOf_mk (v d : Pos) (hd : d ∈ genDirections) :
    vOf ((v.1 + d.1 / 2, v.2 + d.2 / 2), (v.1 + d.1, v.2 + d.2)) = v := by
  rcases genDirections_cases d hd with rfl | rfl | rfl | rfl <;>
    (refine Prod.ext ?_ ?_ <;> simp [vOf] <;> ring)

theorem half_unitAdj (v d : Pos) (hd : d ∈ genDirections) :
    unitAdj v (v.1 + d.1 / 2, v.2 + d.2 / 2) ∧
    unitAdj (v.1 + d.1 / 2, v.2 + d.2 / 2) (v.1 + d.1, v.2 + d.2) := by
  rcases genDirections_cases d hd with rfl | rfl | rfl | rfl <;>
    (constructor <;>
      first
      | (simp [unitAdj]; omega)
      | simp [unitAdj])

theorem sameParity_refl (a : Pos) : sameParity a a := by
  simp [sameParity]

theorem sameParity_step (s v d : Pos) (hv : sameParity v s)
    (hd : d ∈ genDirections) :
    sameParity (v.1 + d.1, v.2 + d.2) s := by
  obtain ⟨h1, h2⟩ := hv
  rcases genDirections_cases d hd with rfl | rfl | rfl | rfl <;>
    (constructor <;> simp <;> omega)

theorem wallParity_half (s v d : Pos) (hv : sameParity v s)
    (hd : d ∈ genDirections) :
    wallParity s (v.1 + d.1 / 2, v.2 + d.2 / 2) := by
  obtain ⟨h1, h2⟩ := hv
  rcases genDirections_cases d hd with rfl | rfl | rfl | rfl <;>
    (unfold wallParity; simp; omega)

theorem wall_ne_lat (s w x : Pos) (hw : wallParity s w)
    (hx : sameParity x s) : w ≠ x := by
  intro h
  subst h
  obtain ⟨p1, p2⟩ := hx
  rcases hw with ⟨h1, h2⟩ | ⟨h1, h2⟩ <;> omega

theorem half_ne_full (v d : Pos) (hd : d ∈ genDirections) :
    (v.1 + d.1 / 2, v.2 + d.2 / 2) ≠ (v.1 + d.1, v.2 + d.2) := by
  rcases genDirections_cases d hd with rfl | rfl | rfl | rfl <;>
    (intro h; rw [Prod.ext_iff] at h; simp at h)

theorem full_ne_base (v d : Pos) (hd : d ∈ genDirections) :
    (v.1 + d.1, v.2 + d.2) ≠ v := by
  rcases genDirections_cases d hd with rfl | rfl | rfl | rfl <;>
    (intro h; rw [Prod.ext_iff] at h; simp at h)

/-- Two lattice-anchored wall representations with the same wall cell have
the same unordered endpoint pair: the neighbor of one is the base or the
neighbor of the other. -/
theorem same_wall_endpoints (s v v' d d' : Pos)
    (hd : d ∈ genDirections) (hd' : d' ∈ genDirections)
    (hv : sameParity v s) (hv' : sameParity v' s)
    (heq : ((v.1 + d.1 / 2, v.2 + d.2 / 2) : Pos) =
      (v'.1 + d'.1 / 2, v'.2 + d'.2 / 2)) :
    ((v.1 + d.1, v.2 + d.2) : Pos) = v' ∨
    ((v.1 + d.1, v.2 + d.2) : Pos) = (v'.1 + d'.1, v'.2 + d'.2) := by
  obtain ⟨a1, a2⟩ := hv
  obtain ⟨b1, b2⟩ := hv'
  rw [Prod.ext_iff] at heq
  simp only [Prod.ext_iff]
  rcases genDirections_cases d hd with rfl | rfl | rfl | rfl <;>
    rcases genDirections_cases d' hd' with rfl | rfl | rfl | rfl <;>
    (simp at heq ⊢; omega)

theorem isValidCell_iff (height width : Int) (p : Pos) :
    isValidCell height width p = true ↔
      0 ≤ p.1 ∧ p.1 < height ∧ 0 ≤ p.2 ∧ p.2 < width := by
  unfold isValidCell
  simp only [Bool.and_eq_true, decide_eq_true_eq]
  tauto

theorem setCell_length (g : List (List Char)) (p : Pos) (ch : Char) :
    (setCell g p ch).length = g.length := by
  simp [setCell]

theorem setCell_head_length (g : List (List Char)) (p : Pos) (ch : Char) :
    ((setCell g p ch).headD []).length = (g.headD []).length := by
  cases g with
  | nil => simp [setCell]
  | cons r t =>
    cases hn : p.1.toNat with
    | zero => simp [setCell, hn, List.length_set]
    | succ m => simp [setCell, hn]

theorem inBoundsCell_setCell (g : List (List Char)) (p q : Pos) (ch : Char) :
    inBoundsCell (setCell g p ch) q = inBoundsCell g q := by
  unfold inBoundsCell
  rw [setCell_length, setCell_head_length]

theorem gridDims_inBounds (height width : Int) (g : List (List Char))
    (hd : gridDims height width g) (p : Pos) :
    inBoundsCell g p = isValidCell height width p := by
  obtain ⟨hh, hw⟩ := hd
  rw [Bool.eq_iff_iff]
  unfold inBoundsCell isValidCell
  simp only [Bool.and_eq_true, decide_eq_true_eq]
  cases g with
  | nil =>
    simp only [List.length_nil] at hh
    simp only [List.length_nil, List.headD_nil]
    omega
  | cons r t =>
    have hr : r.length = width.toNat := hw r (List.mem_cons_self _ _)
    simp only [List.length_cons] at hh
    simp only [List.length_cons, List.headD_cons]
    omega

theorem gridDims_setCell (height width : Int) (g : List (List Char))
    (p : Pos) (ch : Char) (hd : gridDims height width g)
    (hv : isValidCell height width p = true) :
    gridDims height width (setCell g p ch) := by
  rw [isValidCell_iff] at hv
  refine ⟨by rw [setCell_length, hd.1], ?_⟩
  intro row hrow
  rcases List.mem_or_eq_of_mem_set hrow with hrow | rfl
  · exact hd.2 row hrow
  · rw [List.length_set]
    have hlt : p.1.toNat < g.length := by
      rw [hd.1]
      omega
    rw [List.getD_eq_getElem g [] hlt]
    exact hd.2 _ (List.getElem_mem hlt)

theorem cellAt_setCell_self (g : List (List Char)) (p : Pos) (ch : Char)
    (hr : p.1.toNat < g.length)
    (hc : p.2.toNat < (g.getD p.1.toNat []).length) :
    cellAt (setCell g p ch) p = ch := by
  unfold cellAt setCell
  rw [List.getD_eq_getElem _ [] (by simpa using hr), List.getElem_set_self,
    List.getD_eq_getElem _ '#' (by simpa [List.length_set] using hc),
    List.getElem_set_self]

theorem getD_set_ne_row (g : List (List Char)) (i j : Nat)
    (row : List Char) (hne : i ≠ j) :
    (g.set i row).getD j [] = g.getD j [] := by
  rw [List.getD_eq_getElem?_getD, List.getElem?_set_ne hne,
    ← List.getD_eq_getElem?_getD]

theorem getD_set_ne_col (row : List Char) (i j : Nat) (ch : Char)
    (hne : i ≠ j) : (row.set i ch).getD j '#' = row.getD j '#' := by
  rw [List.getD_eq_getElem?_getD, List.getElem?_set_ne hne,
    ← List.getD_eq_getElem?_getD]

theorem getD_set_self_row (g : List (List Char)) (i : Nat)
    (row : List Char) (hlt : i < g.length) :
    (g.set i row).getD i [] = row := by
  rw [List.getD_eq_getElem?_getD, List.getElem?_set_self hlt]
  rfl

theorem cellAt_setCell_other (g : List (List Char)) (p q : Pos) (ch : Char)
    (hne : p.1.toNat ≠ q.1.toNat ∨ p.2.toNat ≠ q.2.toNat) :
    cellAt (setCell g p ch) q = cellAt g q := by
  unfold cellAt setCell
  rcases hne with hne | hne
  · rw [getD_set_ne_row g _ _ _ hne]
  · by_cases hrow : p.1.toNat = q.1.toNat
    · rw [← hrow]
      by_cases hlt : p.1.toNat < g.length
      · rw [getD_set_self_row g _ _ hlt, getD_set_ne_col _ _ _ _ hne]
      · rw [List.set_eq_of_length_le (by omega)]
    · rw [getD_set_ne_row g _ _ _ hrow]

theorem openCell_setCell_self (height width : Int) (g : List (List Char))
    (p : Pos) (hd : gridDims height width g)
    (hv : isValidCell height width p = true) :
    openCell (setCell g p ' ') p = true := by
  have hb : inBoundsCell g p = true := by
    rw [gridDims_inBounds height width g hd]
    exact hv
  have hvp := (isValidCell_iff height width p).1 hv
  have hr : p.1.toNat < g.length := by
    rw [hd.1]
    omega
  have hc : p.2.toNat < (g.getD p.1.toNat []).length := by
    rw [List.getD_eq_getElem g [] hr, hd.2 _ (List.getElem_mem hr)]
    omega
  unfold openCell
  rw [inBoundsCell_setCell, hb, cellAt_setCell_self g p ' ' hr hc]
  simp

theorem openCell_setCell_other (height width : Int) (g : List (List Char))
    (p q : Pos) (ch : Char) (hd : gridDims height width g)
    (hv : isValidCell height width p = true) (hne : q ≠ p) :
    openCell (setCell g p ch) q = openCell g q := by
  unfold openCell
  rw [inBoundsCell_setCell]
  by_cases hqb : inBoundsCell g q = true
  · have hq := (isValidCell_iff height width q).1
      (by rw [← gridDims_inBounds height width g hd]; exact hqb)
    have hp := (isValidCell_iff height width p).1 hv
    have hnt : p.1.toNat ≠ q.1.toNat ∨ p.2.toNat ≠ q.2.toNat := by
      by_contra hcon
      push_neg at hcon
      apply hne
      refine Prod.ext ?_ ?_ <;> omega
    rw [cellAt_setCell_other g p q ch hnt]
  · rw [Bool.not_eq_true] at hqb
    rw [hqb]
    simp

theorem add_walls_shape (height width : Int) (visited : List Pos) (p : Pos) :
    ∀ e ∈ add_walls_to_list height width visited p, ∃ d ∈ genDirections,
      e.1 = (p.1 + d.1 / 2, p.2 + d.2 / 2) ∧ e.2 = (p.1 + d.1, p.2 + d.2) ∧
      isValidCell height width e.1 = true ∧
      isValidCell height width e.2 = true ∧ e.2 ∉ visited := by
  intro e he
  unfold add_walls_to_list at he
  obtain ⟨d, hd, hcond⟩ := List.mem_filterMap.1 he
  by_cases h : (isValidCell height width (p.1 + d.1, p.2 + d.2) &&
      isValidCell height width (p.1 + d.1 / 2, p.2 + d.2 / 2) &&
      !(visited.contains (p.1 + d.1, p.2 + d.2))) = true
  · rw [if_pos h] at hcond
    have he2 : e = ((p.1 + d.1 / 2, p.2 + d.2 / 2), (p.1 + d.1, p.2 + d.2)) :=
      (Option.some.inj hcond).symm
    subst he2
    have hprops : isValidCell height width (p.1 + d.1, p.2 + d.2) = true ∧
        isValidCell height width (p.1 + d.1 / 2, p.2 + d.2 / 2) = true ∧
        (p.1 + d.1, p.2 + d.2) ∉ visited := by
      simpa [and_assoc] using h
    exact ⟨d, hd, rfl, rfl, hprops.2.1, hprops.1, hprops.2.2⟩
  · rw [if_neg h] at hcond
    exact absurd hcond (by simp)

theorem add_walls_complete (height width : Int) (visited : List Pos)
    (p d : Pos) (hd : d ∈ genDirections)
    (hn : isValidCell height width (p.1 + d.1, p.2 + d.2) = true)
    (hw : isValidCell height width (p.1 + d.1 / 2, p.2 + d.2 / 2) = true)
    (hnv : (p.1 + d.1, p.2 + d.2) ∉ visited) :
    ((p.1 + d.1 / 2, p.2 + d.2 / 2), (p.1 + d.1, p.2 + d.2)) ∈
      add_walls_to_list height width visited p := by
  unfold add_walls_to_list
  refine List.mem_filterMap.2 ⟨d, hd, ?_⟩
  have hcond : (isValidCell height width (p.1 + d.1, p.2 + d.2) &&
      isValidCell height width (p.1 + d.1 / 2, p.2 + d.2 / 2) &&
      !(visited.contains (p.1 + d.1, p.2 + d.2))) = true := by
    simp [hn, hw, hnv]
  rw [if_pos hcond]

theorem mid_valid (height width : Int) (v d : Pos) (hd : d ∈ genDirections)
    (hv : isValidCell height width v = true)
    (hn : isValidCell height width (v.1 + d.1, v.2 + d.2) = true) :
    isValidCell height width (v.1 + d.1 / 2, v.2 + d.2 / 2) = true := by
  rw [isValidCell_iff] at hv hn ⊢
  rcases genDirections_cases d hd with rfl | rfl | rfl | rfl <;>
    (simp at hn ⊢; omega)

theorem mem_eraseIdx_of_ne (l : List (Pos × Pos)) (i : Nat) (x : Pos × Pos)
    (hx : x ∈ l) (hne : x ≠ l.getD i ((0, 0), (0, 0))) : x ∈ l.eraseIdx i := by
  induction l generalizing i with
  | nil => cases hx
  | cons a t ih =>
    cases i with
    | zero =>
      rcases List.mem_cons.1 hx with rfl | hx
      · rw [List.getD_cons_zero] at hne
        exact absurd rfl hne
      · rw [List.eraseIdx_cons_zero]
        exact hx
    | succ j =>
      rw [List.eraseIdx_cons_succ]
      rcases List.mem_cons.1 hx with rfl | hx
      · exact List.mem_cons_self _ _
      · refine List.mem_cons_of_mem _ (ih j hx ?_)
        rwa [List.getD_cons_succ] at hne

theorem pickedWall_mem (choice : Nat → Nat) (t : Nat)
    (walls : List (Pos × Pos)) (hne : walls ≠ []) :
    pickedWall choice t walls ∈ walls := by
  unfold pickedWall
  have hlt : choice t % walls.length < walls.length :=
    Nat.mod_lt _ (List.length_pos.2 hne)
  rw [List.getD_eq_getElem _ _ hlt]
  exact List.getElem_mem hlt

/-- One unfolding of the carving loop. -/
theorem primLoop_eq (height width : Int) (choice : Nat → Nat) (t : Nat)
    (grid : List (List Char)) (visited : List Pos)
    (walls : List (Pos × Pos)) (edges : List (Pos × Pos)) :
    primLoop height width choice t grid visited walls edges =
      if walls.isEmpty then (grid, visited, walls, edges)
      else if !(visited.contains (pickedWall choice t walls).2) &&
          isValidCell height width (pickedWall choice t walls).2 then
        primLoop height width choice (t + 1)
          (setCell (setCell grid (pickedWall choice t walls).1 ' ')
            (pickedWall choice t walls).2 ' ')
          (visited ++ [(pickedWall choice t walls).2])
          (poppedWalls choice t walls ++
            add_walls_to_list height width
              (visited ++ [(pickedWall choice t walls).2])
              (pickedWall choice t walls).2)
          (edges ++ [pickedWall choice t walls])
      else
        primLoop height width choice (t + 1) grid visited
          (poppedWalls choice t walls) edges := by
  conv_lhs => unfold primLoop
  simp only [dite_eq_ite]

theorem mem_openOrder (start : Pos) (edges : List (Pos × Pos)) (x : Pos) :
    x ∈ openOrder start edges ↔
      x = start ∨ ∃ e ∈ edges, x = e.1 ∨ x = e.2 := by
  unfold openOrder
  simp only [List.mem_cons, List.mem_flatMap]
  constructor
  · rintro (rfl | ⟨e, he, hx⟩)
    · exact Or.inl rfl
    · rcases hx with rfl | (rfl | hx)
      · exact Or.inr ⟨e, he, Or.inl rfl⟩
      · exact Or.inr ⟨e, he, Or.inr rfl⟩
      · exact absurd hx (by simp)
  · rintro (rfl | ⟨e, he, rfl | rfl⟩)
    · exact Or.inl rfl
    · exact Or.inr ⟨e, he, by simp⟩
    · exact Or.inr ⟨e, he, by simp⟩

theorem openOrder_append (start : Pos) (edges : List (Pos × Pos))
    (e : Pos × Pos) :
    openOrder start (edges ++ [e]) = openOrder start edges ++ [e.1, e.2] := by
  unfold openOrder
  rw [List.flatMap_append]
  simp

theorem inv_parent_visited (height width : Int) (start : Pos)
    (grid : List (List Char)) (visited : List Pos)
    (walls edges : List (Pos × Pos))
    (inv : PrimInv height width start grid visited walls edges) :
    ∀ e ∈ edges, vOf e ∈ visited := by
  intro e he
  obtain ⟨i, hi, rfl⟩ := List.mem_iff_getElem.1 he
  have hp := inv.edges_parent i hi
  rw [inv.visited_eq]
  rcases List.mem_cons.1 hp with h | h
  · rw [h]
    exact List.mem_cons_self _ _
  · exact List.mem_cons_of_mem _
      ((List.map_subset _ (List.take_subset i edges)) h)

theorem inv_edge_parity (height width : Int) (start : Pos)
    (grid : List (List Char)) (visited : List Pos)
    (walls edges : List (Pos × Pos))
    (inv : PrimInv height width start grid visited walls edges) :
    ∀ e ∈ edges, wallParity start e.1 ∧ sameParity e.2 start := by
  intro e he
  obtain ⟨d, hd, v, h1, h2, -, -⟩ := inv.edges_shape e he
  have he' : e = ((v.1 + d.1 / 2, v.2 + d.2 / 2), (v.1 + d.1, v.2 + d.2)) := by
    rw [← h1, ← h2]
  have hveq : vOf e = v := by
    rw [he']
    exact vOf_mk v d hd
  have hvv : vOf e ∈ visited :=
    inv_parent_visited height width start grid visited walls edges inv e he
  rw [hveq] at hvv
  have hvpar : sameParity v start := inv.visited_parity v hvv
  constructor
  · rw [h1]
    exact wallParity_half start v d hvpar hd
  · rw [h2]
    exact sameParity_step start v d hvpar hd

theorem inv_openOrder_class (height width : Int) (start : Pos)
    (grid : List (List Char)) (visited : List Pos)
    (walls edges : List (Pos × Pos))
    (inv : PrimInv height width start grid visited walls edges) :
    ∀ x ∈ openOrder start edges,
      (sameParity x start ∧ (x = start ∨ ∃ e ∈ edges, x = e.2)) ∨
      (wallParity start x ∧ ∃ e ∈ edges, x = e.1) := by
  intro x hx
  rcases (mem_openOrder start edges x).1 hx with rfl | ⟨e, he, h1 | h2⟩
  · exact Or.inl ⟨sameParity_refl x, Or.inl rfl⟩
  · refine Or.inr ⟨?_, e, he, h1⟩
    rw [h1]
    exact (inv_edge_parity height width start grid visited walls edges
      inv e he).1
  · refine Or.inl ⟨?_, Or.inr ⟨e, he, h2⟩⟩
    rw [h2]
    exact (inv_edge_parity height width start grid visited walls edges
      inv e he).2

/-- The invariant survives a rejected pop (the popped entry's neighbor is
already visited). -/
theorem primInv_reject (height width : Int) (start : Pos)
    (choice : Nat → Nat) (t : Nat) (grid : List (List Char))
    (visited : List Pos) (walls edges : List (Pos × Pos))
    (inv : PrimInv height width start grid visited walls edges)
    (hin : (pickedWall choice t walls).2 ∈ visited) :
    PrimInv height width start grid visited
      (poppedWalls choice t walls) edges := by
  obtain ⟨h1, h2, h3, h4, h5, h6, h7, h8, h9, h10⟩ := inv
  refine ⟨h1, h2, h3, h4, ?_, ?_, h7, h8, h9, h10⟩
  · intro f hf
    exact h5 f ((List.eraseIdx_sublist walls _).subset hf)
  · intro v hv d hd hvalid
    rcases h6 v hv d hd hvalid with hmem | ⟨w, hw⟩
    · exact Or.inl hmem
    · by_cases heq : ((w, (v.1 + d.1, v.2 + d.2)) : Pos × Pos) =
          pickedWall choice t walls
      · refine Or.inl ?_
        have hsnd : ((v.1 + d.1, v.2 + d.2) : Pos) =
            (pickedWall choice t walls).2 := congrArg Prod.snd heq
        rw [hsnd]
        exact hin
      · exact Or.inr ⟨w, mem_eraseIdx_of_ne walls _ _ hw heq⟩

/-- The invariant survives an accepted pop: the popped wall and neighbor
are carved, the neighbor is visited, and its candidate walls join the
frontier. -/
theorem primInv_accept (height width : Int) (start : Pos)
    (choice : Nat → Nat) (t : Nat) (grid : List (List Char))
    (visited : List Pos) (walls edges : List (Pos × Pos))
    (inv : PrimInv height width start grid visited walls edges)
    (hne : walls ≠ [])
    (hnv : (pickedWall choice t walls).2 ∉ visited) :
    PrimInv height width start
      (setCell (setCell grid (pickedWall choice t walls).1 ' ')
        (pickedWall choice t walls).2 ' ')
      (visited ++ [(pickedWall choice t walls).2])
      (poppedWalls choice t walls ++
        add_walls_to_list height width
          (visited ++ [(pickedWall choice t walls).2])
          (pickedWall choice t walls).2)
      (edges ++ [pickedWall choice t walls]) := by
  set e := pickedWall choice t walls with he_def
  have hemem : e ∈ walls := pickedWall_mem choice t walls hne
  obtain ⟨d, hd, v, hv, h1, h2, hval1, hval2⟩ := inv.walls_shape e hemem
  have he' : e = ((v.1 + d.1 / 2, v.2 + d.2 / 2), (v.1 + d.1, v.2 + d.2)) := by
    rw [← h1, ← h2]
  have hveq : vOf e = v := by
    rw [he']
    exact vOf_mk v d hd
  have hvpar : sameParity v start := inv.visited_parity v hv
  have hwpar : wallParity start e.1 := by
    rw [h1]
    exact wallParity_half start v d hvpar hd
  have hnpar : sameParity e.2 start := by
    rw [h2]
    exact sameParity_step start v d hvpar hd
  have hstart_mem : start ∈ visited := by
    rw [inv.visited_eq]
    exact List.mem_cons_self _ _
  have hsnd_vis : ∀ f ∈ edges, f.2 ∈ visited := by
    intro f hf
    rw [inv.visited_eq]
    exact List.mem_cons_of_mem _ (List.mem_map_of_mem _ hf)
  have hw_not : e.1 ∉ openOrder start edges := by
    intro hmem
    rcases inv_openOrder_class height width start grid visited walls edges
        inv e.1 hmem with ⟨hpar, -⟩ | ⟨-, f, hf, heq⟩
    · exact (wall_ne_lat start e.1 e.1 hwpar hpar) rfl
    · obtain ⟨d', hd', v', hf1, hf2, -, -⟩ := inv.edges_shape f hf
      have hf' : f = ((v'.1 + d'.1 / 2, v'.2 + d'.2 / 2),
          (v'.1 + d'.1, v'.2 + d'.2)) := by
        rw [← hf1, ← hf2]
      have hv'eq : vOf f = v' := by
        rw [hf']
        exact vOf_mk v' d' hd'
      have hv'vis : v' ∈ visited := by
        rw [← hv'eq]
        exact inv_parent_visited height width start grid visited walls edges
          inv f hf
      have hv'par : sameParity v' start := inv.visited_parity v' hv'vis
      have hwalls_eq : ((v.1 + d.1 / 2, v.2 + d.2 / 2) : Pos) =
          (v'.1 + d'.1 / 2, v'.2 + d'.2 / 2) := by
        rw [← h1, heq, hf1]
      rcases same_wall_endpoints start v v' d d' hd hd' hvpar hv'par
          hwalls_eq with hend | hend
      · apply hnv
        rw [h2, hend]
        exact hv'vis
      · apply hnv
        rw [h2, hend, ← hf2]
        exact hsnd_vis f hf
  have hn_not : e.2 ∉ openOrder start edges := by
    intro hmem
    rcases inv_openOrder_class height width start grid visited walls edges
        inv e.2 hmem with ⟨-, hcase⟩ | ⟨hpar, -⟩
    · rcases hcase with hcase | ⟨f, hf, heq⟩
      · apply hnv
        rw [hcase]
        exact hstart_mem
      · apply hnv
        rw [heq]
        exact hsnd_vis f hf
    · exact (wall_ne_lat start e.2 e.2 hpar hnpar) rfl
  have hww : e.1 ≠ e.2 := by
    rw [h1, h2]
    exact half_ne_full v d hd
  have hnodup' : (openOrder start (edges ++ [e])).Nodup := by
    rw [openOrder_append, List.nodup_append]
    refine ⟨inv.order_nodup, by simp [hww], ?_⟩
    intro x hx hx2
    simp only [List.mem_cons, List.mem_singleton] at hx2
    rcases hx2 with rfl | (rfl | h)
    · exact hw_not hx
    · exact hn_not hx
    · exact absurd h (by simp)
  have hdims1 := gridDims_setCell height width grid e.1 ' ' inv.grid_dims hval1
  have hdims2 := gridDims_setCell height width _ e.2 ' ' hdims1 hval2
  have hopen' : ∀ p,
      openCell (setCell (setCell grid e.1 ' ') e.2 ' ') p = true ↔
      p ∈ openOrder start (edges ++ [e]) := by
    intro p
    rw [openOrder_append]
    by_cases hp2 : p = e.2
    · rw [hp2]
      have hself := openCell_setCell_self height width (setCell grid e.1 ' ')
        e.2 hdims1 hval2
      simp [hself]
    · rw [openCell_setCell_other height width (setCell grid e.1 ' ') e.2 p
        ' ' hdims1 hval2 hp2]
      by_cases hp1 : p = e.1
      · rw [hp1]
        have hself := openCell_setCell_self height width grid e.1
          inv.grid_dims hval1
        simp [hself]
      · rw [openCell_setCell_other height width grid e.1 p ' '
          inv.grid_dims hval1 hp1]
        rw [inv.grid_open p]
        constructor
        · intro h
          exact List.mem_append.2 (Or.inl h)
        · intro h
          rcases List.mem_append.1 h with h | h
          · exact h
          · simp only [List.mem_cons, List.mem_singleton] at h
            rcases h with h | (h | h)
            · exact absurd h hp1
            · exact absurd h hp2
            · exact absurd h (by simp)
  refine ⟨?_, hnodup', ?_, ?_, ?_, ?_, ?_, ?_, hdims2, hopen'⟩
  · rw [inv.visited_eq, List.map_append]
    simp
  · intro x hx
    rcases List.mem_append.1 hx with hx | hx
    · exact inv.visited_valid x hx
    · have : x = e.2 := by simpa using hx
      rw [this]
      exact hval2
  · intro x hx
    rcases List.mem_append.1 hx with hx | hx
    · exact inv.visited_parity x hx
    · have : x = e.2 := by simpa using hx
      rw [this]
      exact hnpar
  · intro f hf
    rcases List.mem_append.1 hf with hf | hf
    · obtain ⟨d', hd', v', hv', hs1, hs2, hsval1, hsval2⟩ :=
        inv.walls_shape f ((List.eraseIdx_sublist walls _).subset hf)
      exact ⟨d', hd', v', List.mem_append.2 (Or.inl hv'), hs1, hs2, hsval1,
        hsval2⟩
    · obtain ⟨d', hd', hs1, hs2, hsval1, hsval2, -⟩ :=
        add_walls_shape height width (visited ++ [e.2]) e.2 f hf
      exact ⟨d', hd', e.2, List.mem_append.2 (Or.inr (by simp)), hs1, hs2,
        hsval1, hsval2⟩
  · intro x hx d' hd' hvalid
    rcases List.mem_append.1 hx with hx | hx
    · rcases inv.closure x hx d' hd' hvalid with hmem | ⟨w, hw⟩
      · exact Or.inl (List.mem_append.2 (Or.inl hmem))
      · by_cases hwe : ((w, (x.1 + d'.1, x.2 + d'.2)) : Pos × Pos) = e
        · refine Or.inl (List.mem_append.2 (Or.inr ?_))
          have hsnd : ((x.1 + d'.1, x.2 + d'.2) : Pos) = e.2 :=
            congrArg Prod.snd hwe
          simp [hsnd]
        · exact Or.inr ⟨w, List.mem_append.2 (Or.inl
            (mem_eraseIdx_of_ne walls _ _ hw hwe))⟩
    · have hxe : x = e.2 := by simpa using hx
      subst hxe
      by_cases hnin : ((e.2.1 + d'.1, e.2.2 + d'.2) : Pos) ∈ visited ++ [e.2]
      · exact Or.inl hnin
      · refine Or.inr ⟨(e.2.1 + d'.1 / 2, e.2.2 + d'.2 / 2),
          List.mem_append.2 (Or.inr ?_)⟩
        exact add_walls_complete height width (visited ++ [e.2]) e.2 d' hd'
          hvalid (mid_valid height width e.2 d' hd' hval2 hvalid) hnin
  · intro f hf
    rcases List.mem_append.1 hf with hf | hf
    · exact inv.edges_shape f hf
    · have : f = e := by simpa using hf
      rw [this]
      exact ⟨d, hd, v, h1, h2, hval1, hval2⟩
  · intro i hi
    rw [List.length_append, List.length_singleton] at hi
    by_cases hilen : i < edges.length
    · rw [List.getElem_append_left hilen,
        List.take_append_of_le_length (by omega)]
      exact inv.edges_parent i hilen
    · have hieq : i = edges.length := by omega
      subst hieq
      rw [List.getElem_concat_length edges e _ rfl, List.take_left]
      rw [hveq]
      have := hv
      rw [inv.visited_eq] at this
      exact this

/-- Every collected empty cell is an open in-bounds non-start cell. -/
theorem emptyCells_sound (grid : List (List Char)) (start : Pos) :
    ∀ p ∈ emptyCells grid start, openNonStart grid start p := by
  intro p hp
  unfold emptyCells at hp
  obtain ⟨r, hr, hp⟩ := List.mem_flatMap.1 hp
  obtain ⟨c, hc, hcond⟩ := List.mem_filterMap.1 hp
  rw [List.mem_range] at hr
  rw [List.mem_range] at hc
  by_cases h : (grid.getD r []).getD c '#' = ' ' ∧ ((r : Int), (c : Int)) ≠ start
  · rw [if_pos h] at hcond
    have hpc : p = ((r : Int), (c : Int)) := (Option.some.inj hcond).symm
    subst hpc
    refine ⟨?_, ?_, h.2⟩
    · unfold inBoundsCell
      simp only [Bool.and_eq_true, decide_eq_true_eq]
      refine ⟨⟨⟨by positivity, ?_⟩, by positivity⟩, ?_⟩
      · exact_mod_cast hr
      · exact_mod_cast hc
    · unfold cellAt
      simpa [Int.toNat_natCast] using h.1
  · rw [if_neg h] at hcond
    exact absurd hcond (by simp)

/-- The collected empty-cell list has no duplicates. -/
theorem emptyCells_nodup (grid : List (List Char)) (start : Pos) :
    (emptyCells grid start).Nodup := by
  unfold emptyCells
  rw [List.nodup_flatMap]
  constructor
  · intro r _
    refine List.Nodup.filterMap ?_ (List.nodup_range _)
    intro c c' p hp hp'
    have hpc : p = ((r : Int), (c : Int)) := by
      by_cases h : (grid.getD r []).getD c '#' = ' ' ∧
          ((r : Int), (c : Int)) ≠ start
      · rw [if_pos h] at hp
        exact (Option.mem_some_iff.1 hp).symm
      · rw [if_neg h] at hp
        exact absurd hp (by simp)
    have hpc' : p = ((r : Int), (c' : Int)) := by
      by_cases h : (grid.getD r []).getD c' '#' = ' ' ∧
          ((r : Int), (c' : Int)) ≠ start
      · rw [if_pos h] at hp'
        exact (Option.mem_some_iff.1 hp').symm
      · rw [if_neg h] at hp'
        exact absurd hp' (by simp)
    have hcc : ((c : Int)) = ((c' : Int)) := by
      have h2 := hpc.symm.trans hpc'
      simpa [Prod.ext_iff] using h2
    exact_mod_cast hcc
  · refine List.Pairwise.imp ?_ (List.pairwise_lt_range _)
    intro r r' hrr p hp hp'
    simp only [List.mem_filterMap] at hp hp'
    obtain ⟨c, -, hc⟩ := hp
    obtain ⟨c', -, hc'⟩ := hp'
    have h1 : p.1 = (r : Int) := by
      by_cases h : (grid.getD r []).getD c '#' = ' ' ∧
          ((r : Int), (c : Int)) ≠ start
      · rw [if_pos h] at hc
        rw [← Option.some.inj hc]
      · rw [if_neg h] at hc
        exact absurd hc (by simp)
    have h2 : p.1 = (r' : Int) := by
      by_cases h : (grid.getD r' []).getD c' '#' = ' ' ∧
          ((r' : Int), (c' : Int)) ≠ start
      · rw [if_pos h] at hc'
        rw [← Option.some.inj hc']
      · rw [if_neg h] at hc'
        exact absurd hc' (by simp)
    have hrr' : r = r' := by
      have := h1.symm.trans h2
      exact_mod_cast this
    omega

/-- A list's optional last element is a member. -/
theorem mem_of_getLastEq {α : Type} {l : List α} {a : α}
    (h : l.getLast? = some a) : a ∈ l := by
  obtain ⟨hne, rfl⟩ := List.mem_getLast?_eq_getLast h
  exact List.getLast_mem hne

/-- Placement facts for the key/door loop: the leftover cell list is a
sublist of the input, every placed position came from the input list, and
the placed color lists are sublists of the palette. -/
theorem placeKD_spec (n : Nat) (cs : List String) (cells : List Pos) :
    (placeKD n cs cells).2.2.Sublist cells ∧
    (∀ cp ∈ (placeKD n cs cells).1, cp.2 ∈ cells) ∧
    (∀ cp ∈ (placeKD n cs cells).2.1, cp.2 ∈ cells) ∧
    ((placeKD n cs cells).1.map Prod.fst).Sublist cs ∧
    ((placeKD n cs cells).2.1.map Prod.fst).Sublist cs := by
  induction n generalizing cs cells with
  | zero => simp [placeKD]
  | succ n ih =>
    cases cs with
    | nil => simp [placeKD]
    | cons color cs =>
      cases hk : cells.getLast? with
      | none =>
        have hunf : placeKD (n + 1) (color :: cs) cells = placeKD n cs cells := by
          simp [placeKD, hk]
        rw [hunf]
        obtain ⟨h1, h2, h3, h4, h5⟩ := ih cs cells
        exact ⟨h1, h2, h3, h4.cons color, h5.cons color⟩
      | some kpos =>
        have hkmem : kpos ∈ cells := mem_of_getLastEq hk
        have hdl : cells.dropLast.Sublist cells := List.dropLast_sublist cells
        cases hd : cells.dropLast.getLast? with
        | none =>
          have hunf : placeKD (n + 1) (color :: cs) cells =
              ((color, kpos) :: (placeKD n cs cells.dropLast).1,
               (placeKD n cs cells.dropLast).2.1,
               (placeKD n cs cells.dropLast).2.2) := by
            simp [placeKD, hk, hd]
          rw [hunf]
          obtain ⟨h1, h2, h3, h4, h5⟩ := ih cs cells.dropLast
          refine ⟨h1.trans hdl, ?_, fun cp hcp => hdl.subset (h3 cp hcp),
            ?_, h5.cons color⟩
          · intro cp hcp
            rcases List.mem_cons.1 hcp with hcp | hcp
            · rw [hcp]
              exact hkmem
            · exact hdl.subset (h2 cp hcp)
          · simpa using h4.cons₂ color
        | some dpos =>
          have hdmem : dpos ∈ cells := hdl.subset (mem_of_getLastEq hd)
          have hdl2 : cells.dropLast.dropLast.Sublist cells :=
            (List.dropLast_sublist _).trans hdl
          have hunf : placeKD (n + 1) (color :: cs) cells =
              ((color, kpos) :: (placeKD n cs cells.dropLast.dropLast).1,
               (color, dpos) :: (placeKD n cs cells.dropLast.dropLast).2.1,
               (placeKD n cs cells.dropLast.dropLast).2.2) := by
            simp [placeKD, hk, hd]
          rw [hunf]
          obtain ⟨h1, h2, h3, h4, h5⟩ := ih cs cells.dropLast.dropLast
          refine ⟨h1.trans hdl2, ?_, ?_, ?_, ?_⟩
          · intro cp hcp
            rcases List.mem_cons.1 hcp with hcp | hcp
            · rw [hcp]
              exact hkmem
            · exact hdl2.subset (h2 cp hcp)
          · intro cp hcp
            rcases List.mem_cons.1 hcp with hcp | hcp
            · rw [hcp]
              exact hdmem
            · exact hdl2.subset (h3 cp hcp)
          · simpa using h4.cons₂ color
          · simpa using h5.cons₂ color

/-- One unfolding of the portal loop, with the cell reads spelled via
`getD`. -/
theorem portalPairs_eq (rem : List Pos) (m i : Nat) :
    portalPairs rem m i =
      if i < m then
        (if i + 1 < rem.length then
           [(rem.getD i (0, 0), rem.getD (i + 1) (0, 0)),
            (rem.getD (i + 1) (0, 0), rem.getD i (0, 0))]
         else []) ++ portalPairs rem m (i + 2)
      else [] := by
  conv_lhs => unfold portalPairs
  by_cases him : i < m
  · rw [if_pos him, if_pos him]
    by_cases hlen : i + 1 < rem.length
    · have hi1 : i < rem.length := by omega
      rw [if_pos hlen, if_pos hlen, List.getElem?_eq_getElem hi1,
        List.getElem?_eq_getElem hlen, List.getD_eq_getElem rem (0, 0) hi1,
        List.getD_eq_getElem rem (0, 0) hlen]
    · rw [if_neg hlen, if_neg hlen]
  · rw [if_neg him, if_neg him]

/-- Every cell mentioned by the portal loop from index `i` onward lies in
the remaining cell list dropped to `i`. -/
theorem portalPairs_mem_drop (rem : List Pos) (m : Nat) :
    ∀ i, ∀ xy ∈ portalPairs rem m i,
      xy.1 ∈ rem.drop i ∧ xy.2 ∈ rem.drop i := by
  have main : ∀ fuel i, m - i ≤ fuel → ∀ xy ∈ portalPairs rem m i,
      xy.1 ∈ rem.drop i ∧ xy.2 ∈ rem.drop i := by
    intro fuel
    induction fuel with
    | zero =>
      intro i hle xy hxy
      rw [portalPairs_eq, if_neg (by omega)] at hxy
      exact absurd hxy (by simp)
    | succ fuel ih =>
      intro i hle xy hxy
      rw [portalPairs_eq] at hxy
      by_cases him : i < m
      · rw [if_pos him] at hxy
        rcases List.mem_append.1 hxy with hxy | hxy
        · by_cases hlen : i + 1 < rem.length
          · have hi1 : i < rem.length := by omega
            rw [if_pos hlen, List.getD_eq_getElem rem (0, 0) hi1,
              List.getD_eq_getElem rem (0, 0) hlen] at hxy
            have hdi : rem.drop i =
                rem[i] :: rem[i + 1] :: rem.drop (i + 2) := by
              rw [List.drop_eq_getElem_cons hi1,
                List.drop_eq_getElem_cons hlen]
            simp only [List.mem_cons, List.mem_singleton] at hxy
            rw [hdi]
            rcases hxy with rfl | (rfl | hxy)
            · exact ⟨List.mem_cons_self _ _,
                List.mem_cons_of_mem _ (List.mem_cons_self _ _)⟩
            · exact ⟨List.mem_cons_of_mem _ (List.mem_cons_self _ _),
                List.mem_cons_self _ _⟩
            · exact absurd hxy (by simp)
          · rw [if_neg hlen] at hxy
            exact absurd hxy (by simp)
        · have hrec := ih (i + 2) (by omega) xy hxy
          have hsub : rem.drop (i + 2) ⊆ rem.drop i := by
            rw [← List.drop_drop]
            exact List.drop_subset 2 (rem.drop i)
          exact ⟨hsub hrec.1, hsub hrec.2⟩
      · rw [if_neg him] at hxy
        exact absurd hxy (by simp)
  exact fun i => main (m - i) i (le_refl _)

/-- Symmetry of the portal loop output: when the remaining cells are
duplicate-free, every registered pair `(x, y)` has a reverse lookup
`portals[y] = x`. -/
theorem portalPairs_symm (rem : List Pos) (m : Nat) (hnd : rem.Nodup) :
    ∀ xy ∈ portalPairs rem m 0,
      portalDest (portalPairs rem m 0) xy.2 = some xy.1 := by
  have main : ∀ fuel i, m - i ≤ fuel → (rem.drop i).Nodup →
      ∀ xy ∈ portalPairs rem m i,
        portalDest (portalPairs rem m i) xy.2 = some xy.1 := by
    intro fuel
    induction fuel with
    | zero =>
      intro i hle _ xy hxy
      rw [portalPairs_eq, if_neg (by omega)] at hxy
      exact absurd hxy (by simp)
    | succ fuel ih =>
      intro i hle hndi xy hxy
      by_cases him : i < m
      · rw [portalPairs_eq, if_pos him] at hxy ⊢
        by_cases hlen : i + 1 < rem.length
        · have hi1 : i < rem.length := by omega
          rw [if_pos hlen, List.getD_eq_getElem rem (0, 0) hi1,
            List.getD_eq_getElem rem (0, 0) hlen] at hxy ⊢
          have hdi : rem.drop i =
              rem[i] :: rem[i + 1] :: rem.drop (i + 2) := by
            rw [List.drop_eq_getElem_cons hi1, List.drop_eq_getElem_cons hlen]
          rw [hdi, List.nodup_cons, List.nodup_cons] at hndi
          have hab : rem[i] ≠ rem[i + 1] := fun h =>
            hndi.1 (h ▸ List.mem_cons_self _ _)
          have hadrop : rem[i] ∉ rem.drop (i + 2) := fun h =>
            hndi.1 (List.mem_cons_of_mem _ h)
          have hbdrop : rem[i + 1] ∉ rem.drop (i + 2) := hndi.2.1
          have hnd2 : (rem.drop (i + 2)).Nodup := hndi.2.2
          rcases List.mem_append.1 hxy with hxy | hxy
          · simp only [List.mem_cons, List.mem_singleton] at hxy
            rcases hxy with rfl | (rfl | hxy)
            · have hfind : ([(rem[i], rem[i + 1]),
                  (rem[i + 1], rem[i])].find?
                    (fun ab => ab.1 == rem[i + 1])) =
                  some (rem[i + 1], rem[i]) := by
                simp [List.find?_cons, hab]
              show portalDest _ rem[i + 1] = some rem[i]
              unfold portalDest
              rw [List.find?_append, hfind]
              rfl
            · have hfind : ([(rem[i], rem[i + 1]),
                  (rem[i + 1], rem[i])].find?
                    (fun ab => ab.1 == rem[i])) =
                  some (rem[i], rem[i + 1]) := by
                simp [List.find?_cons]
              show portalDest _ rem[i] = some rem[i + 1]
              unfold portalDest
              rw [List.find?_append, hfind]
              rfl
            · exact absurd hxy (by simp)
          · have hy2 : xy.2 ∈ rem.drop (i + 2) :=
              (portalPairs_mem_drop rem m (i + 2) xy hxy).2
            have hrec := ih (i + 2) (by omega) hnd2 xy hxy
            have hfind : ([(rem[i], rem[i + 1]),
                (rem[i + 1], rem[i])].find? (fun ab => ab.1 == xy.2)) =
                none := by
              rw [List.find?_eq_none]
              intro ab hmem hcontra
              have hab1 : ab.1 = xy.2 := by simpa using hcontra
              simp only [List.mem_cons, List.mem_singleton] at hmem
              rcases hmem with rfl | (rfl | hmem)
              · apply hadrop
                have he : rem[i] = xy.2 := hab1
                rw [he]
                exact hy2
              · apply hbdrop
                have he : rem[i + 1] = xy.2 := hab1
                rw [he]
                exact hy2
              · exact absurd hmem (by simp)
            unfold portalDest at hrec ⊢
            rw [List.find?_append, hfind, Option.none_or]
            exact hrec
        · rw [if_neg hlen, List.nil_append] at hxy ⊢
          have hnd2 : (rem.drop (i + 2)).Nodup := by
            refine List.Sublist.nodup ?_ hndi
            rw [← List.drop_drop]
            exact List.drop_sublist 2 (rem.drop i)
          exact ih (i + 2) (by omega) hnd2 xy hxy
      · rw [portalPairs_eq, if_neg him] at hxy
        exact absurd hxy (by simp)
  exact main (m - 0) 0 (le_refl _) (by simpa using hnd)

/-- **C8.** Every MazeDefinition — the three shipped mazes, and the output
of `place_special_items` over any grid, start and shuffle (any permutation
of the collected cells) — puts every key, door, book and portal position on
an open in-bounds cell distinct from the start, has a symmetric portal map,
and records each color's book at the same position as that color's door. -/
theorem c8_maze_definition_invariants (grid : List (List Char)) (start : Pos)
    (num_keys num_doors num_portals : Nat) (shuffle : List Pos → List Pos)
    (hsh : (shuffle (emptyCells grid start)).Perm (emptyCells grid start)) :
    shippedMazeInvariants ∧
    mazeItemInvariant grid start
      (place_special_items grid start num_keys num_doors num_portals
        shuffle).1
      (place_special_items grid start num_keys num_doors num_portals
        shuffle).2.1
      (place_special_items grid start num_keys num_doors num_portals
        shuffle).2.2.1
      (place_special_items grid start num_keys num_doors num_portals
        shuffle).2.2.2 := by
  refine ⟨by decide, ?_⟩
  set cells := shuffle (emptyCells grid start) with hcells
  have hopen : ∀ p ∈ cells, openNonStart grid start p := fun p hp =>
    emptyCells_sound grid start p (hsh.mem_iff.1 hp)
  have hcnd : cells.Nodup := hsh.nodup_iff.2 (emptyCells_nodup grid start)
  obtain ⟨hrem, hkeys, hdoors, -, hdscolors⟩ :=
    placeKD_spec (min num_keys (min colors.length (cells.length / 2)))
      colors cells
  have hremnd : (placeKD (min num_keys (min colors.length
      (cells.length / 2))) colors cells).2.2.Nodup := hrem.nodup hcnd
  have hdsnd : ((placeKD (min num_keys (min colors.length
      (cells.length / 2))) colors cells).2.1.map Prod.fst).Nodup :=
    hdscolors.nodup (by decide)
  refine ⟨?_, ?_, ?_, ?_, ?_⟩
  · intro cp hcp
    exact hopen cp.2 (hkeys cp hcp)
  · intro cp hcp
    exact hopen cp.2 (hdoors cp hcp)
  · intro cp hcp
    exact hopen cp.2 (hdoors cp hcp)
  · intro ab hab
    have hmem := portalPairs_mem_drop _ _ 0 ab hab
    rw [List.drop_zero] at hmem
    refine ⟨hopen ab.1 (hrem.subset hmem.1), hopen ab.2 (hrem.subset hmem.2),
      portalPairs_symm _ _ hremnd ab hab⟩
  · intro cp hcp
    refine (lookupColor_iff_mem _ cp.1 cp.2 hdsnd).2 ?_
    simpa using hcp

/-- Witness for C8: the shipped invariants hold, and placement over a small
3×5 corridor grid with the identity shuffle satisfies the invariant. -/
theorem c8_witness :
    shippedMazeInvariants ∧
    mazeItemInvariant (["#####", "#   #", "#####"].map String.toList) (1, 1)
      (place_special_items (["#####", "#   #", "#####"].map String.toList)
        (1, 1) 5 5 2 id).1
      (place_special_items (["#####", "#   #", "#####"].map String.toList)
        (1, 1) 5 5 2 id).2.1
      (place_special_items (["#####", "#   #", "#####"].map String.toList)
        (1, 1) 5 5 2 id).2.2.1
      (place_special_items (["#####", "#   #", "#####"].map String.toList)
        (1, 1) 5 5 2 id).2.2.2 := by
  exact c8_maze_definition_invariants
    (["#####", "#   #", "#####"].map String.toList) (1, 1) 5 5 2 id
    (List.Perm.refl _)

/-- Witness for C10: in a maze whose portal at (1,2) leads onto the locked
red door at (1,3), one step right is accepted and lands the keyless player
on the door cell. -/
theorem c10_witness :
    validate_move_core PORTAL_DOOR_MAZE (1, 1) "right" 1 [] [] =
      .valid (1, 3) [] [] false := by
  have h := c10_no_door_check_after_portal PORTAL_DOOR_MAZE (1, 1) "right"
    (0, 1) 1 [] [] (1, 2) (1, 3) "red" (by decide) (by decide) (by decide)
    (by decide) (by decide)
  rw [h]
  decide

/-- The Prim loop, run with enough fuel, empties the frontier and preserves
the invariant: the fuel bound mirrors the termination measure. -/
theorem primLoop_spec (height width : Int) (start : Pos)
    (choice : Nat → Nat) :
    ∀ (fuel t : Nat) (grid : List (List Char)) (visited : List Pos)
      (walls edges : List (Pos × Pos)),
      4 * unvisitedCount height width visited + walls.length ≤ fuel →
      PrimInv height width start grid visited walls edges →
      ∃ grid' visited' edges',
        primLoop height width choice t grid visited walls edges =
          (grid', visited', [], edges') ∧
        PrimInv height width start grid' visited' [] edges' := by
  intro fuel
  induction fuel with
  | zero =>
    intro t grid visited walls edges hle inv
    have hlen : walls.length = 0 := by omega
    have hwe : walls = [] := List.length_eq_zero.1 hlen
    subst hwe
    rw [primLoop_eq]
    exact ⟨grid, visited, edges, by simp, inv⟩
  | succ fuel ih =>
    intro t grid visited walls edges hle inv
    rw [primLoop_eq]
    by_cases hemp : walls.isEmpty = true
    · have hwe : walls = [] := List.isEmpty_iff.1 hemp
      subst hwe
      exact ⟨grid, visited, edges, by simp, inv⟩
    · rw [if_neg hemp]
      have hne : walls ≠ [] := by
        intro h
        rw [h] at hemp
        exact hemp rfl
      have hpos : 0 < walls.length := List.length_pos.2 hne
      by_cases hacc : (!(visited.contains (pickedWall choice t walls).2) &&
          isValidCell height width (pickedWall choice t walls).2) = true
      · rw [if_pos hacc]
        have hacc' : (pickedWall choice t walls).2 ∉ visited ∧
            isValidCell height width (pickedWall choice t walls).2 = true := by
          simpa using hacc
        refine ih (t + 1) _ _ _ _ ?_
          (primInv_accept height width start choice t grid visited walls
            edges inv hne hacc'.1)
        have hlen := poppedWalls_length choice t walls hne
        have hadd := add_walls_length_le height width
          (visited ++ [(pickedWall choice t walls).2])
          (pickedWall choice t walls).2
        have hdec := unvisitedCount_append_lt height width visited
          (pickedWall choice t walls).2 hacc'.2 hacc'.1
        rw [List.length_append, hlen]
        omega
      · rw [if_neg hacc]
        have hin : (pickedWall choice t walls).2 ∈ visited := by
          obtain ⟨d, hd, v, hv, h1, h2, hval1, hval2⟩ :=
            inv.walls_shape _ (pickedWall_mem choice t walls hne)
          by_contra hnin
          exact hacc (by simp [hval2, hnin])
        refine ih (t + 1) _ _ _ _ ?_
          (primInv_reject height width start choice t grid visited walls
            edges inv hin)
        have hlen := poppedWalls_length choice t walls hne
        rw [hlen]
        omega

/-- Every cell of the initial all-wall grid is closed. -/
theorem openCell_allWalls (height width : Int) (p : Pos) :
    openCell (List.replicate height.toNat (List.replicate width.toNat '#'))
      p = false := by
  have hcell : cellAt
      (List.replicate height.toNat (List.replicate width.toNat '#')) p =
      '#' := by
    unfold cellAt
    rcases Nat.lt_or_ge p.1.toNat height.toNat with h | h
    · rw [List.getD_eq_getElem _ [] (by simpa using h),
        List.getElem_replicate]
      rcases Nat.lt_or_ge p.2.toNat width.toNat with h2 | h2
      · rw [List.getD_eq_getElem _ '#' (by simpa using h2),
          List.getElem_replicate]
      · exact List.getD_eq_default _ _ (by simpa using h2)
    · have hrow : (List.replicate height.toNat
          (List.replicate width.toNat '#')).getD p.1.toNat [] = [] :=
        List.getD_eq_default _ _ (by simpa using h)
      rw [hrow]
      rfl
  unfold openCell
  rw [hcell]
  simp

/-- The invariant holds right before the Prim loop starts: only the start
is carved and its candidate walls form the frontier. -/
theorem primInv_init (height width : Int) (start : Pos)
    (hstart : isValidCell height width start = true) :
    PrimInv height width start
      (setCell (List.replicate height.toNat (List.replicate width.toNat '#'))
        start ' ')
      [start]
      (add_walls_to_list height width [start] start)
      [] := by
  have hdims0 : gridDims height width
      (List.replicate height.toNat (List.replicate width.toNat '#')) := by
    refine ⟨by simp, ?_⟩
    intro row hrow
    rw [List.eq_of_mem_replicate hrow]
    simp
  refine ⟨rfl, by simp [openOrder], ?_, ?_, ?_, ?_, ?_, ?_,
    gridDims_setCell height width _ start ' ' hdims0 hstart, ?_⟩
  · intro v hv
    have hveq : v = start := by simpa using hv
    rw [hveq]
    exact hstart
  · intro v hv
    have hveq : v = start := by simpa using hv
    rw [hveq]
    exact sameParity_refl start
  · intro e he
    obtain ⟨d, hd, h1, h2, hv1, hv2, -⟩ :=
      add_walls_shape height width [start] start e he
    exact ⟨d, hd, start, List.mem_cons_self _ _, h1, h2, hv1, hv2⟩
  · intro v hv d hd hvalid
    have hveq : v = start := by simpa using hv
    rw [hveq] at hvalid ⊢
    by_cases hmem : ((start.1 + d.1, start.2 + d.2) : Pos) ∈
        ([start] : List Pos)
    · exact Or.inl hmem
    · exact Or.inr ⟨(start.1 + d.1 / 2, start.2 + d.2 / 2),
        add_walls_complete height width [start] start d hd hvalid
          (mid_valid height width start d hd hstart hvalid) hmem⟩
  · intro e he
    exact absurd he (by simp)
  · intro i hi
    simp at hi
  · intro p
    constructor
    · intro hopen
      by_cases hps : p = start
      · rw [hps]
        simp [openOrder]
      · rw [openCell_setCell_other height width _ start p ' '
          hdims0 hstart hps, openCell_allWalls] at hopen
        simp at hopen
    · intro hp
      have hpe : p = start := by simpa [openOrder] using hp
      rw [hpe]
      exact openCell_setCell_self height width _ start hdims0 hstart

/-- `generate_maze` finishes with an empty frontier and a final state
satisfying the loop invariant. -/
theorem generate_maze_full_spec (width height : Int) (start : Pos)
    (choice : Nat → Nat)
    (hstart : isValidCell height width start = true) :
    ∃ visited edges,
      generate_maze_full width height start choice =
        (generate_maze width height start choice, visited, [], edges) ∧
      PrimInv height width start (generate_maze width height start choice)
        visited [] edges := by
  obtain ⟨g', v', e', heq, hinv⟩ :=
    primLoop_spec height width start choice
      (4 * unvisitedCount height width [start] +
        (add_walls_to_list height width [start] start).length)
      0
      (setCell (List.replicate height.toNat
        (List.replicate width.toNat '#')) start ' ')
      [start]
      (add_walls_to_list height width [start] start)
      []
      (le_refl _)
      (primInv_init height width start hstart)
  have hfull : generate_maze_full width height start choice =
      (g', v', [], e') := heq
  have hg : generate_maze width height start choice = g' := by
    unfold generate_maze
    rw [hfull]
  refine ⟨v', e', ?_, ?_⟩
  · rw [hfull, hg]
  · rw [hg]
    exact hinv

theorem posIdx_cons_self (l : List Pos) (x : Pos) : posIdx (x :: l) x = 0 := by
  simp [posIdx]

theorem posIdx_cons_of_ne (l : List Pos) (a b : Pos) (h : b ≠ a) :
    posIdx (b :: l) a = posIdx l a + 1 := by
  simp [posIdx, h]

theorem posIdx_lt_length (l : List Pos) (x : Pos) (hx : x ∈ l) :
    posIdx l x < l.length := by
  induction l with
  | nil => cases hx
  | cons a t ih =>
    by_cases hax : a = x
    · rw [hax, posIdx_cons_self]
      simp
    · have hxt : x ∈ t := by
        rcases List.mem_cons.1 hx with h | h
        · exact absurd h.symm hax
        · exact h
      rw [posIdx_cons_of_ne _ _ _ hax, List.length_cons]
      exact Nat.succ_lt_succ (ih hxt)

theorem posIdx_inj (l : List Pos) (x y : Pos) (hx : x ∈ l) (hy : y ∈ l)
    (h : posIdx l x = posIdx l y) : x = y := by
  induction l with
  | nil => cases hx
  | cons a t ih =>
    by_cases hax : a = x <;> by_cases hay : a = y
    · rw [← hax, ← hay]
    · rw [posIdx_cons_of_ne _ _ _ hay, hax, posIdx_cons_self] at h
      exact absurd h.symm (by omega)
    · rw [posIdx_cons_of_ne _ _ _ hax, hay, posIdx_cons_self] at h
      exact absurd h (by omega)
    · have hxt : x ∈ t := by
        rcases List.mem_cons.1 hx with h' | h'
        · exact absurd h'.symm hax
        · exact h'
      have hyt : y ∈ t := by
        rcases List.mem_cons.1 hy with h' | h'
        · exact absurd h'.symm hay
        · exact h'
      rw [posIdx_cons_of_ne _ _ _ hax, posIdx_cons_of_ne _ _ _ hay] at h
      exact ih hxt hyt (by omega)

theorem posIdx_append_left_mem (l1 l2 : List Pos) (x : Pos) (hx : x ∈ l1) :
    posIdx (l1 ++ l2) x = posIdx l1 x := by
  induction l1 with
  | nil => cases hx
  | cons a t ih =>
    by_cases hax : a = x
    · rw [List.cons_append, hax, posIdx_cons_self, posIdx_cons_self]
    · have hxt : x ∈ t := by
        rcases List.mem_cons.1 hx with h | h
        · exact absurd h.symm hax
        · exact h
      rw [List.cons_append, posIdx_cons_of_ne _ _ _ hax,
        posIdx_cons_of_ne _ _ _ hax, ih hxt]

theorem posIdx_append_right_not_mem (l1 l2 : List Pos) (x : Pos)
    (hx : x ∉ l1) : posIdx (l1 ++ l2) x = l1.length + posIdx l2 x := by
  induction l1 with
  | nil => simp
  | cons a t ih =>
    have hax : a ≠ x := fun h => hx (h ▸ List.mem_cons_self a t)
    have hxt : x ∉ t := fun h => hx (List.mem_cons_of_mem _ h)
    rw [List.cons_append, posIdx_cons_of_ne _ _ _ hax, ih hxt,
      List.length_cons]
    omega

/-- Two lattice-parity cells are never at unit distance. -/
theorem no_lat_lat_adj (s x y : Pos) (hx : sameParity x s)
    (hy : sameParity y s) (hadj : unitAdj x y) : False := by
  obtain ⟨a1, a2⟩ := hx
  obtain ⟨b1, b2⟩ := hy
  unfold unitAdj at hadj
  omega

/-- Two wall-parity cells are never at unit distance. -/
theorem no_wall_wall_adj (s x y : Pos) (hx : wallParity s x)
    (hy : wallParity s y) (hadj : unitAdj x y) : False := by
  unfold wallParity at hx hy
  unfold unitAdj at hadj
  omega

/-- A lattice-parity cell at unit distance from the wall cell of a carve
step is one of the step's two endpoints. -/
theorem lat_adj_wall (s v d x : Pos) (hd : d ∈ genDirections)
    (hv : sameParity v s) (hx : sameParity x s)
    (hadj : unitAdj x (v.1 + d.1 / 2, v.2 + d.2 / 2)) :
    x = v ∨ x = (v.1 + d.1, v.2 + d.2) := by
  obtain ⟨a1, a2⟩ := hv
  obtain ⟨b1, b2⟩ := hx
  unfold unitAdj at hadj
  simp only [Prod.ext_iff]
  rcases genDirections_cases d hd with rfl | rfl | rfl | rfl <;>
    (simp at hadj ⊢; omega)

theorem openOrder_length (start : Pos) (edges : List (Pos × Pos)) :
    (openOrder start edges).length = 2 * edges.length + 1 := by
  unfold openOrder
  induction edges with
  | nil => rfl
  | cons e t ih =>
    simp only [List.flatMap_cons, List.length_cons, List.length_append,
      List.length_nil] at ih ⊢
    omega

/-- The carving order splits at each accepted edge: earlier carve cells,
then the edge's wall and neighbor, then later carve cells. -/
theorem openOrder_split (start : Pos) (edges : List (Pos × Pos)) (i : Nat)
    (hi : i < edges.length) :
    openOrder start edges = openOrder start (edges.take i) ++
      edges[i].1 :: edges[i].2 ::
        (edges.drop (i + 1)).flatMap (fun e => [e.1, e.2]) := by
  unfold openOrder
  conv_lhs => rw [← List.take_append_drop i edges,
    List.drop_eq_getElem_cons hi]
  rw [List.flatMap_append, List.flatMap_cons]
  simp

/-- Positions in the carving order: the wall of edge `i` sits at rank
`2i+1`, its neighbor at `2i+2`, and everything carved earlier before
both. -/
theorem openOrder_indexOf_facts (start : Pos) (edges : List (Pos × Pos))
    (hnd : (openOrder start edges).Nodup) (i : Nat) (hi : i < edges.length) :
    posIdx (openOrder start edges) edges[i].1 = 2 * i + 1 ∧
    posIdx (openOrder start edges) edges[i].2 = 2 * i + 2 ∧
    ∀ x ∈ openOrder start (edges.take i),
      posIdx (openOrder start edges) x < 2 * i + 1 := by
  have hsplit := openOrder_split start edges i hi
  have hlen : (openOrder start (edges.take i)).length = 2 * i + 1 := by
    rw [openOrder_length, List.length_take]
    omega
  rw [hsplit] at hnd
  obtain ⟨hnd1, hnd2, hdisj⟩ := List.nodup_append.1 hnd
  have h1nin : edges[i].1 ∉ openOrder start (edges.take i) := by
    intro hmem
    exact hdisj hmem (List.mem_cons_self _ _)
  have h2nin : edges[i].2 ∉ openOrder start (edges.take i) := by
    intro hmem
    exact hdisj hmem (List.mem_cons_of_mem _ (List.mem_cons_self _ _))
  have h12 : edges[i].2 ≠ edges[i].1 := by
    intro h
    have := (List.nodup_cons.1 hnd2).1
    rw [← h] at this
    exact this (List.mem_cons_self _ _)
  refine ⟨?_, ?_, ?_⟩
  · rw [hsplit, posIdx_append_right_not_mem _ _ _ h1nin,
      posIdx_cons_self, hlen]
  · rw [hsplit, posIdx_append_right_not_mem _ _ _ h2nin,
      posIdx_cons_of_ne _ _ _ h12.symm, posIdx_cons_self, hlen]
  · intro x hx
    rw [hsplit, posIdx_append_left_mem _ _ _ hx, ← hlen]
    exact posIdx_lt_length _ _ hx

/-- Each recorded parent cell occurs in the carving order of the earlier
edges. -/
theorem parent_mem_openOrder_take (start : Pos) (edges : List (Pos × Pos))
    (i : Nat) (x : Pos) (hx : x ∈ start :: (edges.take i).map Prod.snd) :
    x ∈ openOrder start (edges.take i) := by
  rcases List.mem_cons.1 hx with rfl | hx
  · exact (mem_openOrder _ _ _).2 (Or.inl rfl)
  · obtain ⟨e, he, hxe⟩ := List.mem_map.1 hx
    exact (mem_openOrder _ _ _).2 (Or.inr ⟨e, he, Or.inr hxe.symm⟩)

/-- Both cells of every accepted edge are reachable from the start in the
walkable graph of the final grid. -/
theorem reach_all (height width : Int) (start : Pos)
    (grid : List (List Char)) (visited : List Pos)
    (edges : List (Pos × Pos))
    (inv : PrimInv height width start grid visited [] edges) :
    ∀ i, ∀ hi : i < edges.length,
      (mazeGraph grid).Reachable start edges[i].1 ∧
      (mazeGraph grid).Reachable start edges[i].2 := by
  intro i
  induction i using Nat.strong_induction_on with
  | h i ih =>
    intro hi
    obtain ⟨d, hd, v, h1, h2, hval1, hval2⟩ :=
      inv.edges_shape edges[i] (List.getElem_mem hi)
    have hee : edges[i] =
        ((v.1 + d.1 / 2, v.2 + d.2 / 2), (v.1 + d.1, v.2 + d.2)) := by
      rw [← h1, ← h2]
    have hvof : vOf edges[i] = v := by
      rw [hee]
      exact vOf_mk v d hd
    have hparent := inv.edges_parent i hi
    rw [hvof] at hparent
    have hvstep : (mazeGraph grid).Reachable start v ∧
        v ∈ openOrder start edges := by
      rcases List.mem_cons.1 hparent with hvs | hmem
      · rw [hvs]
        exact ⟨SimpleGraph.Reachable.refl _,
          (mem_openOrder _ _ _).2 (Or.inl rfl)⟩
      · obtain ⟨x, hx, hxv⟩ := List.mem_map.1 hmem
        obtain ⟨j, hj2, hxe⟩ := List.mem_iff_getElem.1 hx
        have hjlt : j < i := by
          have := List.length_take i edges
          omega
        have hjlen : j < edges.length := by omega
        have hxej : edges[j] = x := by
          rw [List.getElem_take] at hxe
          exact hxe
        have hr := (ih j hjlt hjlen).2
        rw [hxej, hxv] at hr
        refine ⟨hr, (mem_openOrder _ _ _).2 (Or.inr ⟨x, ?_, Or.inr hxv.symm⟩)⟩
        rw [← hxej]
        exact List.getElem_mem hjlen
    have hopenv : openCell grid v = true := (inv.grid_open v).2 hvstep.2
    have hopen1 : openCell grid edges[i].1 = true := by
      refine (inv.grid_open _).2 ((mem_openOrder _ _ _).2
        (Or.inr ⟨edges[i], List.getElem_mem hi, Or.inl rfl⟩))
    have hopen2 : openCell grid edges[i].2 = true := by
      refine (inv.grid_open _).2 ((mem_openOrder _ _ _).2
        (Or.inr ⟨edges[i], List.getElem_mem hi, Or.inr rfl⟩))
    have hadj1 : (mazeGraph grid).Adj v edges[i].1 := by
      refine ⟨hopenv, hopen1, ?_⟩
      rw [h1]
      exact (half_unitAdj v d hd).1
    have hadj2 : (mazeGraph grid).Adj edges[i].1 edges[i].2 := by
      refine ⟨hopen1, hopen2, ?_⟩
      rw [h1, h2]
      exact (half_unitAdj v d hd).2
    have hr1 := hvstep.1.trans hadj1.reachable
    exact ⟨hr1, hr1.trans hadj2.reachable⟩

/-- The walkable graph of the carved grid is acyclic: carving-order rank
strictly increases from a carve step's parent cell to its wall cell to its
neighbor cell, so a cycle's maximal-rank vertex has no consistent class. -/
theorem prim_acyclic (height width : Int) (start : Pos)
    (grid : List (List Char)) (visited : List Pos)
    (edges : List (Pos × Pos))
    (inv : PrimInv height width start grid visited [] edges) :
    (mazeGraph grid).IsAcyclic := by
  intro u c hc
  obtain ⟨m, hm⟩ : ∃ m, m ∈ c.support.argmax
      (fun x => posIdx (openOrder start edges) x) := by
    cases harg : c.support.argmax
        (fun x => posIdx (openOrder start edges) x) with
    | none => exact absurd (List.argmax_eq_none.1 harg) c.support_ne_nil
    | some m => exact ⟨m, rfl⟩
  have hmmem : m ∈ c.support := List.argmax_mem hm
  have hmax : ∀ x ∈ c.support,
      posIdx (openOrder start edges) x ≤ posIdx (openOrder start edges) m :=
    fun x hx => List.le_of_mem_argmax hx hm
  set q := c.rotate hmmem with hq
  have hqc : q.IsCycle := hc.rotate hmmem
  have hrot := SimpleGraph.Walk.support_rotate c hmmem
  rw [← hq] at hrot
  have hsupp : ∀ x ∈ q.support, x ∈ c.support := by
    intro x hx
    rw [SimpleGraph.Walk.support_eq_cons q] at hx
    rcases List.mem_cons.1 hx with hxm | hx
    · rw [hxm]
      exact hmmem
    · exact List.mem_of_mem_tail (hrot.mem_iff.1 hx)
  clear_value q
  have hlen3 : 3 ≤ q.length := hqc.three_le_length
  obtain ⟨a, hadj1, q', hq0⟩ :
      ∃ a, ∃ h : (mazeGraph grid).Adj m a, ∃ q' : (mazeGraph grid).Walk a m,
        q = SimpleGraph.Walk.cons h q' := by
    cases hz : q with
    | nil =>
      rw [hz] at hlen3
      simp at hlen3
    | cons h p => exact ⟨_, h, p, rfl⟩
  obtain ⟨b, hadj2, qr', hqr⟩ :
      ∃ b, ∃ h : (mazeGraph grid).Adj m b, ∃ qr' : (mazeGraph grid).Walk b m,
        q.reverse = SimpleGraph.Walk.cons h qr' := by
    cases hz : q.reverse with
    | nil =>
      have hzl : q.length = 0 := by
        rw [← SimpleGraph.Walk.length_reverse q, hz]
        rfl
      omega
    | cons h p => exact ⟨_, h, p, rfl⟩
  have hedges : q.edges = s(m, a) :: q'.edges := by
    rw [hq0]
    simp
  have hrevedges : q.edges.reverse = s(m, b) :: qr'.edges := by
    rw [← SimpleGraph.Walk.edges_reverse, hqr]
    simp
  have hlast : q.edges.getLast? = some (s(m, b)) := by
    rw [← List.head?_reverse, hrevedges]
    rfl
  have hlenq : q.edges.length = q.length := SimpleGraph.Walk.length_edges q
  have hq'len : q'.edges.length = q'.length := SimpleGraph.Walk.length_edges q'
  have hqlen0 : q.length = q'.length + 1 := by
    rw [hq0]
    simp
  obtain ⟨x0, xs, hq'ed⟩ : ∃ x0 xs, q'.edges = x0 :: xs := by
    cases hcc : q'.edges with
    | nil =>
      rw [hcc] at hq'len
      simp at hq'len
      omega
    | cons x0 xs => exact ⟨x0, xs, rfl⟩
  have hblast : s(m, b) ∈ q'.edges := by
    have h1 : q.edges.getLast? = q'.edges.getLast? := by
      rw [hedges, hq'ed]
      exact List.getLast?_cons_cons
    rw [h1] at hlast
    exact mem_of_getLastEq hlast
  have hndq := hqc.edges_nodup
  rw [hedges] at hndq
  have hani : s(m, a) ∉ q'.edges := (List.nodup_cons.1 hndq).1
  have hab : a ≠ b := by
    intro h
    subst h
    exact hani hblast
  have hamem : a ∈ q.support := by
    rw [hq0, SimpleGraph.Walk.support_cons]
    exact List.mem_cons_of_mem _ (SimpleGraph.Walk.start_mem_support q')
  have hbmem : b ∈ q.support := by
    have hb' : b ∈ q.reverse.support := by
      rw [hqr, SimpleGraph.Walk.support_cons]
      exact List.mem_cons_of_mem _ (SimpleGraph.Walk.start_mem_support qr')
    rw [SimpleGraph.Walk.support_reverse] at hb'
    exact List.mem_reverse.1 hb'
  have hopenm : openCell grid m = true := hadj1.1
  have hmL : m ∈ openOrder start edges := (inv.grid_open m).1 hopenm
  have haL : a ∈ openOrder start edges := (inv.grid_open a).1 hadj1.2.1
  have hbL : b ∈ openOrder start edges := (inv.grid_open b).1 hadj2.2.1
  have hrka : posIdx (openOrder start edges) a <
      posIdx (openOrder start edges) m := by
    have hle := hmax a (hsupp a hamem)
    have hne : posIdx (openOrder start edges) a ≠
        posIdx (openOrder start edges) m := by
      intro h
      exact ((mazeGraph grid).ne_of_adj hadj1).symm
        (posIdx_inj _ _ _ haL hmL h)
    omega
  have hrkb : posIdx (openOrder start edges) b <
      posIdx (openOrder start edges) m := by
    have hle := hmax b (hsupp b hbmem)
    have hne : posIdx (openOrder start edges) b ≠
        posIdx (openOrder start edges) m := by
      intro h
      exact ((mazeGraph grid).ne_of_adj hadj2).symm
        (posIdx_inj _ _ _ hbL hmL h)
    omega
  have hclm := inv_openOrder_class height width start grid visited [] edges
    inv m hmL
  have hcla := inv_openOrder_class height width start grid visited [] edges
    inv a haL
  have hclb := inv_openOrder_class height width start grid visited [] edges
    inv b hbL
  rcases hclm with ⟨hlm, -⟩ | ⟨hwm, e, he, hme⟩
  · have hwa : wallParity start a ∧ ∃ e ∈ edges, a = e.1 := by
      rcases hcla with ⟨hp, -⟩ | h
      · exact (no_lat_lat_adj start m a hlm hp hadj1.2.2).elim
      · exact h
    obtain ⟨hwa1, ea, hea, haea⟩ := hwa
    obtain ⟨i, hi, heia⟩ := List.mem_iff_getElem.1 hea
    obtain ⟨da, hda, va, ha1, ha2, -, -⟩ := inv.edges_shape ea hea
    have heea : ea = ((va.1 + da.1 / 2, va.2 + da.2 / 2),
        (va.1 + da.1, va.2 + da.2)) := by
      rw [← ha1, ← ha2]
    have hvofa : vOf ea = va := by
      rw [heea]
      exact vOf_mk va da hda
    have hvavis : va ∈ visited := by
      have h' := inv_parent_visited height width start grid visited [] edges
        inv ea hea
      rwa [hvofa] at h'
    have hvapar : sameParity va start := inv.visited_parity va hvavis
    have hmend : m = va ∨ m = (va.1 + da.1, va.2 + da.2) := by
      apply lat_adj_wall start va da m hda hvapar hlm
      have h' := hadj1.2.2
      rw [haea, ha1] at h'
      exact h'
    have hfa := openOrder_indexOf_facts start edges inv.order_nodup i hi
    have ha1' : a = edges[i].1 := by rw [haea, heia]
    have hraI : posIdx (openOrder start edges) a = 2 * i + 1 := by
      rw [ha1']
      exact hfa.1
    rcases hmend with hmva | hm2
    · have hpar := inv.edges_parent i hi
      have hvofi : vOf edges[i] = va := by
        rw [heia]
        exact hvofa
      rw [hvofi] at hpar
      have hmem1 : va ∈ openOrder start (edges.take i) :=
        parent_mem_openOrder_take start edges i va hpar
      have hlt := hfa.2.2 va hmem1
      rw [← hmva] at hlt
      omega
    · have hrmI : posIdx (openOrder start edges) m = 2 * i + 2 := by
        have h2i : ((va.1 + da.1, va.2 + da.2) : Pos) = edges[i].2 := by
          rw [heia, ← ha2]
        rw [hm2, h2i]
        exact hfa.2.1
      have hwb : wallParity start b ∧ ∃ e ∈ edges, b = e.1 := by
        rcases hclb with ⟨hp, -⟩ | h
        · exact (no_lat_lat_adj start m b hlm hp hadj2.2.2).elim
        · exact h
      obtain ⟨hwb1, eb, heb, hbeb⟩ := hwb
      obtain ⟨j, hj, hejb⟩ := List.mem_iff_getElem.1 heb
      obtain ⟨db, hdb, vb, hb1, hb2, -, -⟩ := inv.edges_shape eb heb
      have heeb : eb = ((vb.1 + db.1 / 2, vb.2 + db.2 / 2),
          (vb.1 + db.1, vb.2 + db.2)) := by
        rw [← hb1, ← hb2]
      have hvofb : vOf eb = vb := by
        rw [heeb]
        exact vOf_mk vb db hdb
      have hvbvis : vb ∈ visited := by
        have h' := inv_parent_visited height width start grid visited []
          edges inv eb heb
        rwa [hvofb] at h'
      have hvbpar : sameParity vb start := inv.visited_parity vb hvbvis
      have hmendb : m = vb ∨ m = (vb.1 + db.1, vb.2 + db.2) := by
        apply lat_adj_wall start vb db m hdb hvbpar hlm
        have h' := hadj2.2.2
        rw [hbeb, hb1] at h'
        exact h'
      have hfb := openOrder_indexOf_facts start edges inv.order_nodup j hj
      have hb1' : b = edges[j].1 := by rw [hbeb, hejb]
      have hrbI : posIdx (openOrder start edges) b = 2 * j + 1 := by
        rw [hb1']
        exact hfb.1
      rcases hmendb with hmvb | hm2b
      · have hpar := inv.edges_parent j hj
        have hvofj : vOf edges[j] = vb := by
          rw [hejb]
          exact hvofb
        rw [hvofj] at hpar
        have hmem1 : vb ∈ openOrder start (edges.take j) :=
          parent_mem_openOrder_take start edges j vb hpar
        have hlt := hfb.2.2 vb hmem1
        rw [← hmvb] at hlt
        omega
      · have hrmJ : posIdx (openOrder start edges) m = 2 * j + 2 := by
          have h2j : ((vb.1 + db.1, vb.2 + db.2) : Pos) = edges[j].2 := by
            rw [hejb, ← hb2]
          rw [hm2b, h2j]
          exact hfb.2.1
        have hij : posIdx (openOrder start edges) a =
            posIdx (openOrder start edges) b := by omega
        exact hab (posIdx_inj _ _ _ haL hbL hij)
  · obtain ⟨i, hi, hei⟩ := List.mem_iff_getElem.1 he
    obtain ⟨d, hd, v, h1, h2, -, -⟩ := inv.edges_shape e he
    have hee : e = ((v.1 + d.1 / 2, v.2 + d.2 / 2),
        (v.1 + d.1, v.2 + d.2)) := by
      rw [← h1, ← h2]
    have hvof : vOf e = v := by
      rw [hee]
      exact vOf_mk v d hd
    have hvvis : v ∈ visited := by
      have h' := inv_parent_visited height width start grid visited [] edges
        inv e he
      rwa [hvof] at h'
    have hvpar : sameParity v start := inv.visited_parity v hvvis
    have hlata : sameParity a start := by
      rcases hcla with ⟨hp, -⟩ | ⟨hp, -⟩
      · exact hp
      · exact (no_wall_wall_adj start m a hwm hp hadj1.2.2).elim
    have haend : a = v ∨ a = (v.1 + d.1, v.2 + d.2) := by
      apply lat_adj_wall start v d a hd hvpar hlata
      have h' := ((mazeGraph grid).symm hadj1).2.2
      rw [hme, h1] at h'
      exact h'
    have hlatb : sameParity b start := by
      rcases hclb with ⟨hp, -⟩ | ⟨hp, -⟩
      · exact hp
      · exact (no_wall_wall_adj start m b hwm hp hadj2.2.2).elim
    have hbend : b = v ∨ b = (v.1 + d.1, v.2 + d.2) := by
      apply lat_adj_wall start v d b hd hvpar hlatb
      have h' := ((mazeGraph grid).symm hadj2).2.2
      rw [hme, h1] at h'
      exact h'
    have hfacts := openOrder_indexOf_facts start edges inv.order_nodup i hi
    have hm1 : m = edges[i].1 := by rw [hme, hei]
    have hrm : posIdx (openOrder start edges) m = 2 * i + 1 := by
      rw [hm1]
      exact hfacts.1
    have h2i : ((v.1 + d.1, v.2 + d.2) : Pos) = edges[i].2 := by
      rw [hei, ← h2]
    rcases haend with hav | ha2
    · rcases hbend with hbv | hb2
      · exact hab (hav.trans hbv.symm)
      · have hrb : posIdx (openOrder start edges) b = 2 * i + 2 := by
          rw [hb2, h2i]
          exact hfacts.2.1
        omega
    · have hra : posIdx (openOrder start edges) a = 2 * i + 2 := by
        rw [ha2, h2i]
        exact hfacts.2.1
      omega

/-- C7: for every odd width and height, valid start position and random
stream, the Prim carving loop of `generate_maze` terminates with the
frontier empty; every in-bounds stride-2 lattice cell reachable from the
start is open; every open cell of the resulting grid is reachable from the
start in the unit-step walk graph; that graph is acyclic, so each open cell
is joined to the start by exactly one path; and `generate_complete_maze`
increments even width/height inputs to odd before carving. -/
theorem c7_maze_generation_spanning_tree (width height : Int) (start : Pos)
    (choice : Nat → Nat)
    (_hw : width % 2 = 1) (_hh : height % 2 = 1)
    (hstart : isValidCell height width start = true) :
    (generate_maze_full width height start choice).2.2.1 = [] ∧
    (∀ p, LatReach height width start p →
      openCell (generate_maze width height start choice) p = true) ∧
    (∀ p, openCell (generate_maze width height start choice) p = true →
      (mazeGraph (generate_maze width height start choice)).Reachable
        start p) ∧
    (mazeGraph (generate_maze width height start choice)).IsAcyclic ∧
    (∀ p, openCell (generate_maze width height start choice) p = true →
      ∃! _q : (mazeGraph (generate_maze width height start choice)).Path
        start p, True) ∧
    (∀ n : Int, n % 2 = 0 → adjustDim n = n + 1) ∧
    (∀ n : Int, n % 2 ≠ 0 → adjustDim n = n) ∧
    generate_complete_maze_grid width height start choice =
      generate_maze (adjustDim width) (adjustDim height) start choice := by
  obtain ⟨visited, edges, heq, hinv⟩ :=
    generate_maze_full_spec width height start choice hstart
  have hreach : ∀ p,
      openCell (generate_maze width height start choice) p = true →
      (mazeGraph (generate_maze width height start choice)).Reachable
        start p := by
    intro p hp
    have hmem := (hinv.grid_open p).1 hp
    rcases (mem_openOrder start edges p).1 hmem with hps | ⟨e, he, h1 | h2⟩
    · rw [hps]
    · obtain ⟨i, hi, hei⟩ := List.mem_iff_getElem.1 he
      have hr := (reach_all height width start _ visited edges hinv i hi).1
      rw [hei] at hr
      rw [h1]
      exact hr
    · obtain ⟨i, hi, hei⟩ := List.mem_iff_getElem.1 he
      have hr := (reach_all height width start _ visited edges hinv i hi).2
      rw [hei] at hr
      rw [h2]
      exact hr
  have hacyc := prim_acyclic height width start _ visited edges hinv
  refine ⟨by rw [heq], ?_, hreach, hacyc, ?_, ?_, ?_, rfl⟩
  · intro p hp
    have hvis : p ∈ visited := by
      induction hp with
      | base =>
        rw [hinv.visited_eq]
        exact List.mem_cons_self _ _
      | step p' d hr hd hval ih =>
        rcases hinv.closure p' ih d hd hval with h | ⟨w, hw⟩
        · exact h
        · exact absurd hw (by simp)
    refine (hinv.grid_open p).2 ?_
    rw [hinv.visited_eq] at hvis
    rcases List.mem_cons.1 hvis with hps | hmm
    · rw [hps]
      exact (mem_openOrder _ _ _).2 (Or.inl rfl)
    · obtain ⟨e, he, hpe⟩ := List.mem_map.1 hmm
      exact (mem_openOrder _ _ _).2 (Or.inr ⟨e, he, Or.inr hpe.symm⟩)
  · intro p hp
    obtain ⟨w⟩ := hreach p hp
    exact ⟨w.toPath, trivial,
      fun y _ => SimpleGraph.isAcyclic_iff_path_unique.1 hacyc y w.toPath⟩
  · intro n hn
    simp [adjustDim, hn]
  · intro n hn
    simp [adjustDim, hn]

/-- Witness for C7 at a concrete instantiation: a 1×1 maze with start
(0,0) and the constant random stream ends with an empty frontier and an
acyclic walk graph, and its sole open cell is reachable from the start. -/
theorem c7_witness :
    (generate_maze_full 1 1 (0, 0) (fun _ => 0)).2.2.1 = [] ∧
    (mazeGraph (generate_maze 1 1 (0, 0) (fun _ => 0))).IsAcyclic ∧
    (∀ p, openCell (generate_maze 1 1 (0, 0) (fun _ => 0)) p = true →
      (mazeGraph (generate_maze 1 1 (0, 0) (fun _ => 0))).Reachable
        (0, 0) p) := by
  have h := c7_maze_generation_spanning_tree 1 1 ((0 : Int), (0 : Int))
    (fun _ => 0) (by decide) (by decide) (by decide)
  exact ⟨h.1, h.2.2.2.1, h.2.2.1⟩

end MazeGame
